import Mathlib

/-!
A shallow embedding of the cross-source entity-resolution and merge engine
in `src/transform_integrated.py`, together with proofs about it.

Modelling conventions:
* Python scalar values that occur in the record dictionaries are modelled by
  `Val` (`None`, booleans, integers, strings and lists of strings).  Floats
  do not occur in any property considered here and are left out.
* Python dictionaries are association lists (`Dct`) that keep insertion
  order: assignment to an existing key replaces the value in place,
  assignment to a fresh key appends at the end, exactly like CPython dicts.
* `str.strip` / `str.split` / `str.lower` are modelled over ASCII
  whitespace and ASCII case, which covers the data handled by the pipeline.
* Python `set` objects (`artist_names_without_id`, `album_keys_without_id`)
  are modelled as duplicate-free lists in first-insertion order; the phase
  that iterates over them is parameterised by the enumeration order so that
  order (in)dependence can be stated and proved.
-/

namespace MashupETL

/-- Python values appearing in track/album/artist attribute dictionaries. -/
inductive Val where
  | vnone : Val
  | vbool : Bool → Val
  | vint : Int → Val
  | vstr : String → Val
  | vlist : List String → Val
deriving DecidableEq, Repr

/-- Python truthiness of a `Val` (`bool(v)`). -/
def Val.truthy : Val → Bool
  | .vnone => false
  | .vbool b => b
  | .vint n => n ≠ 0
  | .vstr s => s ≠ ""
  | .vlist l => l ≠ []

/-- Membership in the tuple `(None, "", [], {})` used by `_merge_info`
(the `{}` case cannot arise for the scalar/list values modelled here). -/
def Val.isEmptyish : Val → Bool
  | .vnone => true
  | .vstr s => s = ""
  | .vlist l => l = []
  | _ => false

/-- Python `str(v)` for the values we model.  The list rendering elides the
quotes Python would print; no property below depends on it. -/
def pyStr : Val → String
  | .vnone => "None"
  | .vbool b => if b then "True" else "False"
  | .vint n => toString n
  | .vstr s => s
  | .vlist l => "[" ++ String.intercalate ", " l ++ "]"

/-- ASCII whitespace, as recognised by `str.strip` / `str.split`. -/
def isWs (c : Char) : Bool :=
  c = ' ' || c = '\t' || c = '\n' || c = '\r' || c = '\x0b' || c = '\x0c'

/-- `str.strip()` on a character list. -/
def pyStrip (l : List Char) : List Char :=
  ((l.dropWhile isWs).reverse.dropWhile isWs).reverse

/-- Helper for `pyWords`: `acc` holds the current word, reversed. -/
def pyWordsAux : List Char → List Char → List (List Char)
  | [], acc => if acc = [] then [] else [acc.reverse]
  | c :: cs, acc =>
    if isWs c then
      if acc = [] then pyWordsAux cs [] else acc.reverse :: pyWordsAux cs []
    else pyWordsAux cs (c :: acc)

/-- `str.split()` (split on whitespace runs, discarding empty parts). -/
def pyWords (l : List Char) : List (List Char) := pyWordsAux l []

/-- `" ".join(words)`. -/
def joinSp : List (List Char) → List Char
  | [] => []
  | [w] => w
  | w :: ws => w ++ ' ' :: joinSp ws

/-- `str.lower()` (ASCII case folding). -/
def pyLower (l : List Char) : List Char := l.map Char.toLower

/-- Absence of whitespace characters. -/
def noWs (l : List Char) : Bool := l.all (fun c => !isWs c)

/-- No two adjacent whitespace characters. -/
def noDoubleWs : List Char → Bool
  | a :: b :: rest => (!(isWs a && isWs b)) && noDoubleWs (b :: rest)
  | _ => true

/-- Core of `_normalize_name`: strip, and if nothing remains return `None`;
otherwise split/re-join on single spaces and lower-case, returning `None`
for an empty result (`return s or None`). -/
def normCore (l : List Char) : Option String :=
  let s := pyStrip l
  if s = [] then none
  else
    let t := pyLower (joinSp (pyWords s))
    if t = [] then none else some (String.mk t)

/-- `_normalize_name`: `None` stays `None`; anything else goes through
`str()` and `normCore`. -/
def normalizeName (v : Val) : Option String :=
  match v with
  | .vnone => none
  | v => normCore (pyStr v).data

/-- A Python dictionary with `String` keys, in insertion order. -/
abbrev Dct := List (String × Val)

/-- `d.get(k)` distinguishing a missing key from a stored `None`. -/
def dget : Dct → String → Option Val
  | [], _ => none
  | (k', v) :: d, k => if k' = k then some v else dget d k

/-- `d.get(k)` with Python's `None` default. -/
def dgetV (d : Dct) (k : String) : Val := (dget d k).getD .vnone

/-- `d[k] = v`: replace in place if present, else append. -/
def dset : Dct → String → Val → Dct
  | [], k, v => [(k, v)]
  | (k', w) :: d, k, v => if k' = k then (k', v) :: d else (k', w) :: dset d k v

/-- One step of `_merge_info`: process a single `(k, v)` item of `new`. -/
def mergeStep (b : Dct) (kv : String × Val) : Dct :=
  if kv.2 = Val.vnone then b
  else
    match dget b kv.1 with
    | some w => if w.isEmptyish then dset b kv.1 kv.2 else b
    | none => dset b kv.1 kv.2

/-- `_merge_info(base, new)`: fill only absent/empty fields of `base` from
the non-`None` fields of `new`. -/
def mergeInfo (base new : Dct) : Dct := new.foldl mergeStep base

/-- Generic association-list lookup (CPython dict `get`, insertion order). -/
def alookup {α : Type} {β : Type} [DecidableEq α] : List (α × β) → α → Option β
  | [], _ => none
  | (k', v) :: d, k => if k' = k then some v else alookup d k

/-- Generic association-list assignment: replace in place, else append. -/
def aset {α : Type} {β : Type} [DecidableEq α] : List (α × β) → α → β → List (α × β)
  | [], k, v => [(k, v)]
  | (k', w) :: d, k, v => if k' = k then (k', v) :: d else (k', w) :: aset d k v

/-- Pointwise update of a total-function map. -/
def upd {α : Type} {β : Type} [DecidableEq α] (f : α → β) (k : α) (v : β) : α → β :=
  fun x => if x = k then v else f x

/-- Pointwise update of an optional-function map. -/
def updOpt {α : Type} {β : Type} [DecidableEq α] (f : α → Option β) (k : α) (v : β) :
    α → Option β :=
  fun x => if x = k then some v else f x

/-- `set.add`, modelled as append-if-absent (first-insertion order). -/
def addPend {α : Type} [DecidableEq α] (l : List α) (x : α) : List α :=
  if x ∈ l then l else l ++ [x]

/-- A nested `{track, album, artists}` record (absent sub-objects are `{}`,
matching the `rec.get(...) or {}` defaulting in the source). -/
structure NRec where
  track : Dct
  album : Dct
  artists : List Dct
deriving DecidableEq, Repr

/-- Album identity key: `(album_name_norm, owner_id or owner_norm)`;
a missing owner component is `vnone`. -/
abbrev AKey := Option String × Val

/-- `f"synth:artist:{norm}"`. -/
def synthArtistId (n : String) : String := "synth:artist:" ++ n

/-- Rendering of an `Optional[str]` inside an f-string. -/
def optStr : Option String → String
  | none => "None"
  | some s => s

/-- `f"synth:album:{album_name_norm}::owner:{owner_label}"` for an album
key, with `owner_label = owner_part if owner_part else "none"`. -/
def synthAlbumId (k : AKey) : String :=
  "synth:album:" ++ optStr k.1 ++ "::owner:" ++ (if k.2.truthy then pyStr k.2 else "none")

/-- The global knowledge-base state of `_build_knowledge`.  The maps that
the source only ever reads or writes pointwise are total functions with
default `{}`; the two maps whose `.items()` are iterated are kept as
insertion-ordered association lists; the two `set` objects are
duplicate-free lists in first-insertion order. -/
structure Know where
  nameToId : List (String × Val)
  nameToInfo : String → Dct
  idToInfo : Val → Dct
  pendingNames : List String
  keyToId : List (AKey × Val)
  keyToInfo : AKey → Dct
  albumIdToInfo : Val → Dct
  pendingKeys : List AKey

def initKnow : Know :=
  ⟨[], fun _ => [], fun _ => [], [], [], fun _ => [], fun _ => [], []⟩

/-- The per-artist part of the `_build_knowledge` scan (lines 103-124). -/
def scanArtist (st : Know) (a : Dct) : Know :=
  let norm := normalizeName (dgetV a "artist_name")
  let aid := dgetV a "artist_id"
  let st1 :=
    match norm with
    | some n => { st with nameToInfo := upd st.nameToInfo n (mergeInfo (st.nameToInfo n) a) }
    | none => st
  if aid.truthy then
    let st2 := { st1 with idToInfo := upd st1.idToInfo aid (mergeInfo (st1.idToInfo aid) a) }
    match norm with
    | some n =>
      if alookup st2.nameToId n = none then
        { st2 with nameToId := st2.nameToId ++ [(n, aid)] }
      else st2
    | none => st2
  else
    match norm with
    | some n => { st1 with pendingNames := addPend st1.pendingNames n }
    | none => st1

/-- The per-album part of the `_build_knowledge` scan (lines 126-151). -/
def scanAlbum (st : Know) (album : Dct) (artists : List Dct) : Know :=
  let albumName := dgetV album "album_name"
  if albumName.truthy then
    let nn := normalizeName albumName
    let ownerId := dgetV album "album_artist_owner_id"
    let ownerNorm : Option String :=
      if ownerId.truthy then none
      else
        match artists with
        | a0 :: _ => normalizeName (dgetV a0 "artist_name")
        | [] => none
    let ownerComp : Val :=
      if ownerId.truthy then ownerId
      else
        match ownerNorm with
        | some s => .vstr s
        | none => .vnone
    let key : AKey := (nn, ownerComp)
    let aidAlbum := dgetV album "album_id"
    let st1 := { st with keyToInfo := upd st.keyToInfo key (mergeInfo (st.keyToInfo key) album) }
    if aidAlbum.truthy then
      let st2 :=
        { st1 with albumIdToInfo := upd st1.albumIdToInfo aidAlbum
                     (mergeInfo (st1.albumIdToInfo aidAlbum) album) }
      if alookup st2.keyToId key = none then
        { st2 with keyToId := st2.keyToId ++ [(key, aidAlbum)] }
      else st2
    else { st1 with pendingKeys := addPend st1.pendingKeys key }
  else st

def scanRecord (st : Know) (r : NRec) : Know :=
  scanAlbum (r.artists.foldl scanArtist st) r.album r.artists

def scanAll (recs : List NRec) : Know := recs.foldl scanRecord initKnow

/-- Minting one synthetic artist id (lines 158-163). -/
def mintArtistStep (st : Know) (n : String) : Know :=
  if alookup st.nameToId n = none then
    { st with
      nameToId := st.nameToId ++ [(n, .vstr (synthArtistId n))],
      idToInfo := upd st.idToInfo (.vstr (synthArtistId n)) (st.nameToInfo n) }
  else st

/-- Minting one synthetic album id (lines 173-180). -/
def mintAlbumStep (st : Know) (k : AKey) : Know :=
  if alookup st.keyToId k = none then
    { st with
      keyToId := st.keyToId ++ [(k, .vstr (synthAlbumId k))],
      albumIdToInfo := upd st.albumIdToInfo (.vstr (synthAlbumId k)) (st.keyToInfo k) }
  else st

/-- One step of folding name-keyed info into id-keyed info (lines 166-170). -/
def fuseArtistPair (nameToInfo : String → Dct) (f : Val → Dct) (p : String × Val) : Val → Dct :=
  if nameToInfo p.1 = [] then f else upd f p.2 (mergeInfo (f p.2) (nameToInfo p.1))

/-- One step of folding key-keyed album info into id-keyed info (183-187). -/
def fuseAlbumPair (keyToInfo : AKey → Dct) (f : Val → Dct) (p : AKey × Val) : Val → Dct :=
  if keyToInfo p.1 = [] then f else upd f p.2 (mergeInfo (f p.2) (keyToInfo p.1))

/-- `_build_knowledge`, with the enumeration orders of the two pending
`set`s supplied as `σa` / `σb` (CPython iterates them in some unspecified
order; `scanAll` records first-insertion order as the canonical choice). -/
def buildKnowledge (σa : List String) (σb : List AKey) (recs : List NRec) : Know :=
  let st0 := scanAll recs
  let st1 := σa.foldl mintArtistStep st0
  let st2 := { st1 with idToInfo := st1.nameToId.foldl (fuseArtistPair st1.nameToInfo) st1.idToInfo }
  let st3 := σb.foldl mintAlbumStep st2
  { st3 with albumIdToInfo := st3.keyToId.foldl (fuseAlbumPair st3.keyToInfo) st3.albumIdToInfo }

/-- The four maps as they are consumed downstream (only ever read or
written pointwise after the build, never iterated). -/
structure Maps where
  nameToId : String → Option Val
  idToInfo : Val → Dct
  keyToId : AKey → Option Val
  albumIdToInfo : Val → Dct

def Know.toMaps (st : Know) : Maps :=
  ⟨fun n => alookup st.nameToId n, st.idToInfo, fun k => alookup st.keyToId k, st.albumIdToInfo⟩

/-- The per-artist part of `_apply_ids_and_enrich` (lines 219-235). -/
def enrichArtist (m : Maps) (a : Dct) : Dct × Maps :=
  let norm := normalizeName (dgetV a "artist_name")
  let aid0 := dgetV a "artist_id"
  let step1 : Dct × Val × Maps :=
    if aid0.truthy then (a, aid0, m)
    else
      match norm with
      | some n =>
        let looked := ((m.nameToId n).getD .vnone)
        if looked.truthy then (dset a "artist_id" looked, looked, m)
        else
          let sid : Val := .vstr (synthArtistId n)
          (dset a "artist_id" sid, sid, { m with nameToId := updOpt m.nameToId n sid })
      | none => (a, aid0, m)
  let a1 := step1.1
  let aid1 := step1.2.1
  let m1 := step1.2.2
  if aid1.truthy then
    (if m1.idToInfo aid1 = [] then a1 else mergeInfo a1 (m1.idToInfo aid1), m1)
  else (a1, m1)

/-- One step of the artists loop, threading the accumulated list and the
(possibly defensively extended) maps. -/
def enrichArtistStepAcc (acc : List Dct × Maps) (a : Dct) : List Dct × Maps :=
  let p := enrichArtist acc.2 a
  (acc.1 ++ [p.1], p.2)

/-- The artists loop of `_apply_ids_and_enrich` over one record. -/
def enrichArtistsFold (m : Maps) (arts : List Dct) : List Dct × Maps :=
  arts.foldl enrichArtistStepAcc ([], m)

/-- Owner back-fill (lines 242-246): if the album has no truthy owner id,
adopt the first artist's truthy id. -/
def fillOwner (album0 : Dct) (artists1 : List Dct) : Dct :=
  if (dgetV album0 "album_artist_owner_id").truthy then album0
  else
    match artists1 with
    | a0 :: _ =>
      if (dgetV a0 "artist_id").truthy then
        dset album0 "album_artist_owner_id" (dgetV a0 "artist_id")
      else album0
    | [] => album0

/-- `album_name_norm = _normalize_name(album_name) if album_name else None`. -/
def albumNorm (album0 : Dct) : Option String :=
  if (dgetV album0 "album_name").truthy then normalizeName (dgetV album0 "album_name") else none

/-- The per-album part of `_apply_ids_and_enrich` (lines 237-269), applied
after the artists have been enriched. -/
def enrichAlbum (m1 : Maps) (album0 : Dct) (artists1 : List Dct) : Dct × Maps :=
  let album1 := fillOwner album0 artists1
  let ownerPart := dgetV album1 "album_artist_owner_id"
  let step2 : Dct × Val × Maps :=
    match albumNorm album0 with
    | some n =>
      let key : AKey := (some n, ownerPart)
      let aid0 := dgetV album1 "album_id"
      if aid0.truthy then (album1, aid0, m1)
      else
        let looked := ((m1.keyToId key).getD .vnone)
        if looked.truthy then (dset album1 "album_id" looked, looked, m1)
        else
          let sid : Val := .vstr (synthAlbumId key)
          (dset album1 "album_id" sid, sid, { m1 with keyToId := updOpt m1.keyToId key sid })
    | none => (album1, dgetV album1 "album_id", m1)
  let album2 := step2.1
  let aidAlbum := step2.2.1
  let m2 := step2.2.2
  let album3 :=
    if aidAlbum.truthy then
      if m2.albumIdToInfo aidAlbum = [] then album2 else mergeInfo album2 (m2.albumIdToInfo aidAlbum)
    else album2
  (album3, m2)

/-- The per-record part of `_apply_ids_and_enrich` (lines 213-277). -/
def enrichRecord (m : Maps) (r : NRec) : NRec × Maps :=
  let af := enrichArtistsFold m r.artists
  let ab := enrichAlbum af.2 r.album af.1
  (⟨r.track, ab.1, af.1⟩, ab.2)

/-- One step of the record loop of `_apply_ids_and_enrich`. -/
def enrichStepAcc (acc : List NRec × Maps) (r : NRec) : List NRec × Maps :=
  let p := enrichRecord acc.2 r
  (acc.1 ++ [p.1], p.2)

/-- `_apply_ids_and_enrich` over a whole source stream. -/
def enrichAll (m : Maps) (recs : List NRec) : List NRec × Maps :=
  recs.foldl enrichStepAcc ([], m)

/-- De-duplication key of `_merge_artist_lists.key_for`: `("id", str(aid))`
when the artist id is truthy, else `("name", norm or "")`. -/
abbrev AK := Bool × String

def keyFor (a : Dct) : AK :=
  let aid := dgetV a "artist_id"
  if aid.truthy then (true, pyStr aid)
  else (false, (normalizeName (dgetV a "artist_name")).getD "")

/-- The base-list loop of `_merge_artist_lists`: `result_map[k] = dict(a)`. -/
def mergeBaseStep (m : List (AK × Dct)) (a : Dct) : List (AK × Dct) :=
  aset m (keyFor a) a

/-- The new-list loop of `_merge_artist_lists`: soft-merge on key hit,
append on miss. -/
def mergeNewStep (m : List (AK × Dct)) (a : Dct) : List (AK × Dct) :=
  match alookup m (keyFor a) with
  | some e => aset m (keyFor a) (mergeInfo e a)
  | none => m ++ [(keyFor a, a)]

/-- `_merge_artist_lists` (lines 285-315). -/
def mergeArtistLists (base new : List Dct) : List Dct :=
  (new.foldl mergeNewStep (base.foldl mergeBaseStep [])).map (·.2)

/-- `_merge_nested` (lines 318-342). -/
def mergeNested (base new : NRec) : NRec :=
  { track := mergeInfo base.track new.track,
    album := mergeInfo base.album new.album,
    artists := mergeArtistLists base.artists new.artists }

/-- `str(track_id)` of a record, or `none` when absent/falsy. -/
def tidOf (r : NRec) : Option String :=
  let t := dgetV r.track "track_id"
  if t.truthy then some (pyStr t) else none

abbrev Catalog := List (String × NRec)

/-- One step of `_integrate` (lines 422-437). -/
def integrateStep (cat : Catalog) (r : NRec) : Catalog :=
  match tidOf r with
  | none => cat
  | some s =>
    match alookup cat s with
    | none => cat ++ [(s, r)]
    | some e => aset cat s (mergeNested e r)

/-- The final merge over the three enriched streams, in priority order. -/
def integrateAll (streams : List (List NRec)) : Catalog :=
  streams.foldl (fun cat recs => recs.foldl integrateStep cat) []

/-- One row of the output dataset (lines 448-452). -/
structure FinalEntry where
  track_id : String
  track : Dct
  album : Dct
  artists : List Dct
deriving DecidableEq, Repr

def outputRecords (cat : Catalog) : List FinalEntry :=
  cat.map (fun p => ⟨p.1, p.2.track, p.2.album, p.2.artists⟩)

/-- The whole engine downstream of the knowledge build, as a function of
the four maps. -/
def runFromMaps (m0 : Maps) (sp glob yt : List NRec) : List FinalEntry :=
  let e1 := enrichAll m0 sp
  let e2 := enrichAll e1.2 glob
  let e3 := enrichAll e2.2 yt
  outputRecords (integrateAll [e1.1, e2.1, e3.1])

/-- `transform_integrated` with explicit pending-set enumeration orders. -/
def transformWith (σa : List String) (σb : List AKey) (sp glob yt : List NRec) :
    List FinalEntry :=
  runFromMaps (buildKnowledge σa σb (sp ++ glob ++ yt)).toMaps sp glob yt

/-- `transform_integrated`, with the pending sets enumerated in canonical
first-insertion order. -/
def transformIntegrated (sp glob yt : List NRec) : List FinalEntry :=
  let st := scanAll (sp ++ glob ++ yt)
  transformWith st.pendingNames st.pendingKeys sp glob yt

/-- The internal states of `_build_knowledge`, named: after artist minting
(`kbSt1`), after artist-info fusion (`kbSt2`), after album minting
(`kbSt3`); `buildKnowledge` is `kbSt3` with the album info fused in. -/
def kbSt1 (σa : List String) (recs : List NRec) : Know :=
  σa.foldl mintArtistStep (scanAll recs)

def kbSt2 (σa : List String) (recs : List NRec) : Know :=
  { kbSt1 σa recs with
    idToInfo := (kbSt1 σa recs).nameToId.foldl
      (fuseArtistPair (kbSt1 σa recs).nameToInfo) (kbSt1 σa recs).idToInfo }

def kbSt3 (σa : List String) (σb : List AKey) (recs : List NRec) : Know :=
  σb.foldl mintAlbumStep (kbSt2 σa recs)

/-- The growth property that every build phase step satisfies. -/
def Grows (st st' : Know) : Prop :=
  ∃ t u, st'.nameToId = st.nameToId ++ t ∧ st'.keyToId = st.keyToId ++ u ∧
    (∀ p ∈ t, p.2.truthy = true) ∧ (∀ p ∈ u, p.2.truthy = true)

/-- All id values reachable from the maps are truthy. -/
def MapsTruthy (m : Maps) : Prop :=
  (∀ n v, m.nameToId n = some v → v.truthy = true) ∧
  (∀ k v, m.keyToId k = some v → v.truthy = true)

/-- Enrichment only ever adds map entries (and never touches the two
info tables). -/
def MapsLe (m m' : Maps) : Prop :=
  (∀ n v, m.nameToId n = some v → m'.nameToId n = some v) ∧
  (∀ k v, m.keyToId k = some v → m'.keyToId k = some v) ∧
  m'.idToInfo = m.idToInfo ∧ m'.albumIdToInfo = m.albumIdToInfo

/-- Well-formedness of the de-duplication map: unique keys, and every
stored entry still answers to its key. -/
def MapOk (mp : List (AK × Dct)) : Prop :=
  (mp.map Prod.fst).Nodup ∧ ∀ p ∈ mp, keyFor p.2 = p.1

/-! ### Lemmas about the name normalizer -/

theorem toNat_ofNat_valid (n : Nat) (h : n.isValidChar) : (Char.ofNat n).toNat = n := by
  unfold Char.ofNat
  simp only [h, dif_pos]
  simp [Char.ofNatAux, Char.toNat]
  rfl

theorem valid_shift (n : Nat) (h : n ≤ 90) : (n + 32).isValidChar :=
  Or.inl (by omega)

theorem toLower_eq_shift (c : Char) (h : c.toNat ≥ 65 ∧ c.toNat ≤ 90) :
    Char.toLower c = Char.ofNat (c.toNat + 32) := by
  simp only [Char.toLower]
  rw [if_pos h]

theorem toLower_eq_self (c : Char) (h : ¬(c.toNat ≥ 65 ∧ c.toNat ≤ 90)) :
    Char.toLower c = c := by
  simp only [Char.toLower]
  rw [if_neg h]

/-- `str.lower` is idempotent character-wise. -/
theorem toLower_toLower (c : Char) : Char.toLower (Char.toLower c) = Char.toLower c := by
  by_cases h : c.toNat ≥ 65 ∧ c.toNat ≤ 90
  · have h2 : (Char.toLower c).toNat = c.toNat + 32 := by
      rw [toLower_eq_shift c h]
      exact toNat_ofNat_valid _ (valid_shift _ h.2)
    apply toLower_eq_self
    rw [h2]
    omega
  · rw [toLower_eq_self c h, toLower_eq_self c h]

theorem isWs_le (c : Char) (h : isWs c = true) : c.toNat ≤ 32 := by
  simp only [isWs, Bool.or_eq_true, decide_eq_true_eq] at h
  rcases h with ((((h | h) | h) | h) | h) | h <;> subst h <;> decide

theorem isWs_toLower (c : Char) : isWs (Char.toLower c) = isWs c := by
  by_cases h : c.toNat ≥ 65 ∧ c.toNat ≤ 90
  · have h2 : (Char.toLower c).toNat = c.toNat + 32 := by
      rw [toLower_eq_shift c h]
      exact toNat_ofNat_valid _ (valid_shift _ h.2)
    have hc : isWs c = false := by
      cases hw : isWs c
      · rfl
      · exact absurd (isWs_le c hw) (by omega)
    have hl : isWs (Char.toLower c) = false := by
      cases hw : isWs (Char.toLower c)
      · rfl
      · have := isWs_le _ hw
        rw [h2] at this
        omega
    rw [hl, hc]
  · rw [toLower_eq_self c h]

/-- Characters of a normalised name are already lower-case. -/
theorem pyLower_fixed (l : List Char) : ∀ c ∈ pyLower l, Char.toLower c = c := by
  intro c hc
  obtain ⟨c', _, rfl⟩ := List.mem_map.mp hc
  exact toLower_toLower c'

theorem noWs_iff (l : List Char) : noWs l = true ↔ ∀ c ∈ l, isWs c = false := by
  simp [noWs, List.all_eq_true]

theorem noDoubleWs_nil : noDoubleWs [] = true := rfl

theorem noDoubleWs_single (a : Char) : noDoubleWs [a] = true := rfl

theorem noDoubleWs_cons2 (a b : Char) (rest : List Char) :
    noDoubleWs (a :: b :: rest) = ((!(isWs a && isWs b)) && noDoubleWs (b :: rest)) := rfl

theorem noWs_noDoubleWs (l : List Char) (h : noWs l = true) : noDoubleWs l = true := by
  induction l with
  | nil => rfl
  | cons a t ih =>
    cases t with
    | nil => rfl
    | cons b r =>
      have ha : isWs a = false := (noWs_iff _).mp h a (by simp)
      have ht : noWs (b :: r) = true := by
        rw [noWs_iff]
        intro c hc
        exact (noWs_iff _).mp h c (by simp [hc])
      rw [noDoubleWs_cons2, ha, ih ht]
      simp

theorem noDoubleWs_append (w l : List Char) (hw : noWs w = true) (hl : noDoubleWs l = true) :
    noDoubleWs (w ++ l) = true := by
  induction w with
  | nil => simpa
  | cons a t ih =>
    have ha : isWs a = false := (noWs_iff _).mp hw a (by simp)
    have ht : noWs t = true := by
      rw [noWs_iff]
      intro c hc
      exact (noWs_iff _).mp hw c (by simp [hc])
    have hrec : noDoubleWs (t ++ l) = true := ih ht
    rw [List.cons_append]
    cases hc : t ++ l with
    | nil => exact noDoubleWs_single a
    | cons b r =>
      rw [noDoubleWs_cons2, ha]
      rw [hc] at hrec
      rw [hrec]
      simp

/-- All words produced by `pyWordsAux` are nonempty and whitespace-free. -/
theorem pyWordsAux_words (l : List Char) :
    ∀ acc, noWs acc = true → ∀ w ∈ pyWordsAux l acc, w ≠ [] ∧ noWs w = true := by
  induction l with
  | nil =>
    intro acc hacc w hw
    by_cases h : acc = []
    · simp [pyWordsAux, h] at hw
    · simp only [pyWordsAux, h, if_false, List.mem_singleton] at hw
      subst hw
      constructor
      · simpa
      · rw [noWs_iff]
        intro c hc
        exact (noWs_iff _).mp hacc c (List.mem_reverse.mp hc)
  | cons c cs ih =>
    intro acc hacc w hw
    by_cases hws : isWs c
    · simp only [pyWordsAux, hws, if_true] at hw
      by_cases h : acc = []
      · rw [if_pos h] at hw
        exact ih [] rfl w hw
      · rw [if_neg h] at hw
        rcases List.mem_cons.mp hw with hw | hw
        · subst hw
          constructor
          · simpa
          · rw [noWs_iff]
            intro x hx
            exact (noWs_iff _).mp hacc x (List.mem_reverse.mp hx)
        · exact ih [] rfl w hw
    · simp only [pyWordsAux, hws, if_false] at hw
      have hacc' : noWs (c :: acc) = true := by
        rw [noWs_iff]
        intro x hx
        rcases List.mem_cons.mp hx with hx | hx
        · subst hx
          simpa using hws
        · exact (noWs_iff _).mp hacc x hx
      exact ih (c :: acc) hacc' w hw

theorem pyWords_words (l : List Char) : ∀ w ∈ pyWords l, w ≠ [] ∧ noWs w = true :=
  pyWordsAux_words l [] rfl

theorem joinSp_nil : joinSp [] = [] := rfl

theorem joinSp_single (w : List Char) : joinSp [w] = w := rfl

theorem joinSp_cons2 (w w2 : List Char) (ws : List (List Char)) :
    joinSp (w :: w2 :: ws) = w ++ ' ' :: joinSp (w2 :: ws) := rfl

theorem joinSp_ne_nil (w : List Char) (ws : List (List Char)) (hw : w ≠ []) :
    joinSp (w :: ws) ≠ [] := by
  cases ws with
  | nil => simpa [joinSp_single]
  | cons w2 ws2 => simp [joinSp_cons2, hw]

/-- `joinSp` of nonempty whitespace-free words: whitespace appears only as
single separating spaces, and not at either end. -/
theorem joinSp_ok (ws : List (List Char)) (h : ∀ w ∈ ws, w ≠ [] ∧ noWs w = true) :
    noDoubleWs (joinSp ws) = true ∧
    (∀ c ∈ joinSp ws, isWs c = true → c = ' ') ∧
    (∀ c, (joinSp ws).head? = some c → isWs c = false) ∧
    (∀ c, (joinSp ws).getLast? = some c → isWs c = false) := by
  induction ws with
  | nil => exact ⟨rfl, by simp [joinSp_nil], by simp [joinSp_nil], by simp [joinSp_nil]⟩
  | cons w ws ih =>
    have hw := h w (by simp)
    cases ws with
    | nil =>
      rw [joinSp_single]
      refine ⟨noWs_noDoubleWs w hw.2, ?_, ?_, ?_⟩
      · intro c hc hcw
        exact absurd hcw (by simp [(noWs_iff _).mp hw.2 c hc])
      · intro c hc
        exact (noWs_iff _).mp hw.2 c (List.mem_of_mem_head? hc)
      · intro c hc
        exact (noWs_iff _).mp hw.2 c (List.mem_of_mem_getLast? hc)
    | cons w2 ws2 =>
      have ih2 := ih (fun x hx => h x (by simp [hx]))
      have hw2 := h w2 (by simp)
      have hjne : joinSp (w2 :: ws2) ≠ [] := joinSp_ne_nil w2 ws2 hw2.1
      rw [joinSp_cons2]
      refine ⟨?_, ?_, ?_, ?_⟩
      · apply noDoubleWs_append _ _ hw.2
        cases hj : joinSp (w2 :: ws2) with
        | nil => exact absurd hj hjne
        | cons b r =>
          have hb : isWs b = false := ih2.2.2.1 b (by simp [hj])
          have hnd := ih2.1
          rw [hj] at hnd
          rw [noDoubleWs_cons2, hb, hnd]
          simp
      · intro c hc hcw
        rcases List.mem_append.mp hc with hc | hc
        · exact absurd hcw (by simp [(noWs_iff _).mp hw.2 c hc])
        · rcases List.mem_cons.mp hc with hc | hc
          · exact hc
          · exact ih2.2.1 c hc hcw
      · intro c hc
        rw [List.head?_append] at hc
        cases hwh : w.head? with
        | none => exact absurd (List.head?_eq_none_iff.mp hwh) hw.1
        | some c0 =>
          rw [hwh] at hc
          have : c0 = c := by simpa using hc
          subst this
          exact (noWs_iff _).mp hw.2 c0 (List.mem_of_mem_head? hwh)
      · intro c hc
        rw [List.getLast?_append] at hc
        have hg : (' ' :: joinSp (w2 :: ws2)).getLast? = (joinSp (w2 :: ws2)).getLast? := by
          cases hj : joinSp (w2 :: ws2) with
          | nil => exact absurd hj hjne
          | cons b r => simp [List.getLast?_cons_cons]
        rw [hg] at hc
        cases hj : (joinSp (w2 :: ws2)).getLast? with
        | none => exact absurd (List.getLast?_eq_none_iff.mp hj) hjne
        | some c1 =>
          rw [hj] at hc
          have : c1 = c := by simpa using hc
          subst this
          exact ih2.2.2.2 c1 hj

theorem pyStrip_all_ws (l : List Char) (h : ∀ c ∈ l, isWs c = true) : pyStrip l = [] := by
  unfold pyStrip
  rw [List.dropWhile_eq_nil_iff.mpr h]
  simp [List.dropWhile]

theorem mem_dropWhile_of_not (p : Char → Bool) (l : List Char) (c : Char)
    (hc : c ∈ l) (hp : p c = false) : c ∈ l.dropWhile p := by
  induction l with
  | nil => simp at hc
  | cons a t ih =>
    by_cases ha : p a
    · rw [List.dropWhile_cons_of_pos ha]
      rcases List.mem_cons.mp hc with hc | hc
      · subst hc
        rw [ha] at hp
        cases hp
      · exact ih hc
    · rw [List.dropWhile_cons_of_neg ha]
      exact hc

theorem mem_pyStrip (l : List Char) (c : Char) (hc : c ∈ l) (hp : isWs c = false) :
    c ∈ pyStrip l := by
  unfold pyStrip
  rw [List.mem_reverse]
  apply mem_dropWhile_of_not _ _ _ _ hp
  rw [List.mem_reverse]
  exact mem_dropWhile_of_not _ _ _ hc hp

theorem pyWordsAux_ne_nil_of_acc (l : List Char) :
    ∀ acc, acc ≠ [] → pyWordsAux l acc ≠ [] := by
  induction l with
  | nil =>
    intro acc h
    simp [pyWordsAux, h]
  | cons c cs ih =>
    intro acc h
    by_cases hws : isWs c
    · simp [pyWordsAux, hws, h]
    · simp only [pyWordsAux, hws, if_false]
      exact ih (c :: acc) (by simp)

theorem pyWordsAux_ne_nil (l : List Char) :
    ∀ acc, (∃ c ∈ l, isWs c = false) → pyWordsAux l acc ≠ [] := by
  induction l with
  | nil =>
    intro acc h
    simp at h
  | cons c cs ih =>
    intro acc ⟨c0, hc0, hc0w⟩
    by_cases hws : isWs c
    · have hcs : c0 ∈ cs := by
        rcases List.mem_cons.mp hc0 with h | h
        · subst h
          rw [hws] at hc0w
          cases hc0w
        · exact h
      simp only [pyWordsAux, hws, if_true]
      by_cases h : acc = []
      · rw [if_pos h]
        exact ih [] ⟨c0, hcs, hc0w⟩
      · simp [h]
    · simp only [pyWordsAux, hws, if_false]
      exact pyWordsAux_ne_nil_of_acc cs (c :: acc) (by simp)

/-- Everything `normCore` returns is a fully normalised key. -/
theorem normCore_some (l : List Char) (r : String) (h : normCore l = some r) :
    r ≠ "" ∧ (∀ c ∈ r.data, Char.toLower c = c) ∧ (∀ c ∈ r.data, isWs c = true → c = ' ') ∧
    noDoubleWs r.data = true ∧ (∀ c, r.data.head? = some c → isWs c = false) ∧
    (∀ c, r.data.getLast? = some c → isWs c = false) := by
  unfold normCore at h
  by_cases h1 : pyStrip l = []
  · simp [h1] at h
  · simp only [h1, if_false] at h
    by_cases h2 : pyLower (joinSp (pyWords (pyStrip l))) = []
    · simp [h2] at h
    · simp only [h2, if_false, Option.some_inj] at h
      subst h
      have hdata : (String.mk (pyLower (joinSp (pyWords (pyStrip l))))).data
          = pyLower (joinSp (pyWords (pyStrip l))) := rfl
      have hok := joinSp_ok (pyWords (pyStrip l)) (pyWords_words (pyStrip l))
      rw [hdata]
      refine ⟨?_, pyLower_fixed _, ?_, ?_, ?_, ?_⟩
      · intro he
        exact h2 (by simpa using congrArg String.data he)
      · intro c hc hcw
        obtain ⟨c', hc', rfl⟩ := List.mem_map.mp hc
        rw [isWs_toLower] at hcw
        have := hok.2.1 c' hc' hcw
        subst this
        decide
      · unfold pyLower
        have hgen : ∀ m : List Char, noDoubleWs m = true → noDoubleWs (m.map Char.toLower) = true := by
          intro m
          induction m with
          | nil => intro; rfl
          | cons a t ih =>
            intro hm
            cases t with
            | nil => rfl
            | cons b u =>
              rw [noDoubleWs_cons2] at hm
              simp only [Bool.and_eq_true, Bool.not_eq_true', Bool.and_eq_false_iff] at hm
              rw [List.map_cons, List.map_cons, noDoubleWs_cons2]
              have ht := ih hm.2
              rw [List.map_cons] at ht
              rw [ht, isWs_toLower, isWs_toLower]
              rcases hm.1 with h | h <;> simp [h]
        exact hgen _ hok.1
      · intro c hc
        rw [pyLower, List.head?_map] at hc
        cases hh : (joinSp (pyWords (pyStrip l))).head? with
        | none => simp [hh] at hc
        | some c0 =>
          rw [hh] at hc
          have : Char.toLower c0 = c := by simpa using hc
          subst this
          rw [isWs_toLower]
          exact hok.2.2.1 c0 hh
      · intro c hc
        rw [pyLower, List.getLast?_map] at hc
        cases hh : (joinSp (pyWords (pyStrip l))).getLast? with
        | none => simp [hh] at hc
        | some c0 =>
          rw [hh] at hc
          have : Char.toLower c0 = c := by simpa using hc
          subst this
          rw [isWs_toLower]
          exact hok.2.2.2 c0 hh

theorem normCore_all_ws (l : List Char) (h : ∀ c ∈ l, isWs c = true) : normCore l = none := by
  unfold normCore
  simp [pyStrip_all_ws l h]

theorem normCore_isSome (l : List Char) (h : ∃ c ∈ l, isWs c = false) :
    (normCore l).isSome = true := by
  obtain ⟨c0, hc0, hc0w⟩ := h
  have hmem : c0 ∈ pyStrip l := mem_pyStrip l c0 hc0 hc0w
  have h1 : pyStrip l ≠ [] := by
    intro he
    rw [he] at hmem
    simp at hmem
  have hwne : pyWords (pyStrip l) ≠ [] :=
    pyWordsAux_ne_nil (pyStrip l) [] ⟨c0, hmem, hc0w⟩
  have h2 : pyLower (joinSp (pyWords (pyStrip l))) ≠ [] := by
    cases hw : pyWords (pyStrip l) with
    | nil => exact absurd hw hwne
    | cons w ws =>
      have hne := joinSp_ne_nil w ws (pyWords_words (pyStrip l) w (by rw [hw]; simp)).1
      simpa [pyLower] using hne
  unfold normCore
  simp [h1, h2]

/-! ### Basic lemmas about the dictionary operations -/

theorem Val.truthy_not_emptyish (v : Val) (h : v.truthy) : v.isEmptyish = false := by
  cases v <;> simp_all [Val.truthy, Val.isEmptyish]

theorem dget_dset_self (d : Dct) (k : String) (v : Val) : dget (dset d k v) k = some v := by
  induction d with
  | nil => simp [dset, dget]
  | cons p d ih =>
    by_cases h : p.1 = k
    · simp [dset, dget, h]
    · simp [dset, dget, h, ih]

theorem dget_dset_ne (d : Dct) (k' k : String) (v : Val) (h : k' ≠ k) :
    dget (dset d k' v) k = dget d k := by
  induction d with
  | nil => simp [dset, dget, h]
  | cons p d ih =>
    obtain ⟨pk, pv⟩ := p
    by_cases hp : pk = k'
    · subst hp
      simp [dset, dget, h]
    · by_cases hk : pk = k <;> simp [dset, dget, hp, hk, ih, Ne.symm h]

theorem mergeStep_dget_ne (b : Dct) (kv : String × Val) (k : String) (h : kv.1 ≠ k) :
    dget (mergeStep b kv) k = dget b k := by
  unfold mergeStep
  by_cases h1 : kv.2 = Val.vnone
  · simp [h1]
  · simp only [h1, if_false]
    cases hb : dget b kv.1 with
    | none => simp [dget_dset_ne _ _ _ _ h]
    | some w =>
      by_cases he : w.isEmptyish <;> simp [he, dget_dset_ne _ _ _ _ h]

theorem mergeInfo_nil (base : Dct) : mergeInfo base [] = base := rfl

theorem mergeInfo_cons (base : Dct) (kv : String × Val) (rest : Dct) :
    mergeInfo base (kv :: rest) = mergeInfo (mergeStep base kv) rest := rfl

theorem mergeStep_preserves (b : Dct) (kv : String × Val) (k : String) (v : Val)
    (hv : dget b k = some v) (hne : v.isEmptyish = false) :
    dget (mergeStep b kv) k = some v := by
  by_cases h : kv.1 = k
  · unfold mergeStep
    by_cases h1 : kv.2 = Val.vnone
    · simp [h1, hv]
    · simp only [h1, if_false]
      rw [h, hv]
      simp [hne]
      rw [hv]
  · rw [mergeStep_dget_ne _ _ _ h, hv]

/-- Soft-merge never disturbs a non-empty existing value. -/
theorem mergeInfo_preserves (base new : Dct) (k : String) (v : Val)
    (hv : dget base k = some v) (hne : v.isEmptyish = false) :
    dget (mergeInfo base new) k = some v := by
  induction new generalizing base with
  | nil => simpa [mergeInfo_nil]
  | cons kv rest ih =>
    rw [mergeInfo_cons]
    exact ih (mergeStep base kv) (mergeStep_preserves base kv k v hv hne)

/-- Soft-merge leaves keys it never mentions alone. -/
theorem mergeInfo_dget_not_mem (base new : Dct) (k : String)
    (h : ∀ kv ∈ new, kv.1 ≠ k) :
    dget (mergeInfo base new) k = dget base k := by
  induction new generalizing base with
  | nil => simp [mergeInfo_nil]
  | cons kv rest ih =>
    rw [mergeInfo_cons]
    have h1 : dget (mergeStep base kv) k = dget base k :=
      mergeStep_dget_ne base kv k (h kv (by simp))
    rw [ih (mergeStep base kv) (fun kv' hm => h kv' (by simp [hm])), h1]

/-- Soft-merge fills a key absent from the target from the first matching
non-`None` item of `new` (for a duplicate-free `new`). -/
theorem mergeInfo_fills (base new : Dct) (k : String) (v : Val)
    (hnd : (new.map Prod.fst).Nodup)
    (hb : dget base k = none) (hn : dget new k = some v) (hv : v ≠ Val.vnone) :
    dget (mergeInfo base new) k = some v := by
  induction new generalizing base with
  | nil => simp [dget] at hn
  | cons kv rest ih =>
    obtain ⟨k0, v0⟩ := kv
    by_cases h : k0 = k
    · subst h
      have hv0 : v0 = v := by simpa [dget] using hn
      subst hv0
      have hset : dget (mergeStep base (k0, v0)) k0 = some v0 := by
        unfold mergeStep
        simp only [hv, if_false]
        simp only [hb]
        exact dget_dset_self base k0 v0
      have hout : ∀ kv' ∈ rest, kv'.1 ≠ k0 := by
        intro kv' hm
        simp only [List.map_cons, List.nodup_cons] at hnd
        intro he
        exact hnd.1 (he ▸ List.mem_map_of_mem Prod.fst hm)
      rw [mergeInfo_cons]
      rw [mergeInfo_dget_not_mem (mergeStep base (k0, v0)) rest k0 hout]
      exact hset
    · have hn' : dget rest k = some v := by simpa [dget, h] using hn
      have hb' : dget (mergeStep base (k0, v0)) k = none := by
        rw [mergeStep_dget_ne base (k0, v0) k h, hb]
      have hnd' : (rest.map Prod.fst).Nodup := by
        simpa [List.nodup_cons] using hnd.of_cons
      rw [mergeInfo_cons]
      apply ih <;> assumption

/-! ### Lemmas about association lists and the final merge -/

theorem alookup_aset_self {α β : Type} [DecidableEq α] (d : List (α × β)) (k : α) (v : β) :
    alookup (aset d k v) k = some v := by
  induction d with
  | nil => simp [aset, alookup]
  | cons p d ih =>
    by_cases h : p.1 = k
    · simp [aset, alookup, h]
    · simp [aset, alookup, h, ih]

theorem alookup_aset_ne {α β : Type} [DecidableEq α] (d : List (α × β)) (k' k : α) (v : β)
    (h : k' ≠ k) : alookup (aset d k' v) k = alookup d k := by
  induction d with
  | nil => simp [aset, alookup, h]
  | cons p d ih =>
    obtain ⟨pk, pv⟩ := p
    by_cases hp : pk = k'
    · subst hp
      simp [aset, alookup, h]
    · by_cases hk : pk = k <;> simp [aset, alookup, hp, hk, ih, Ne.symm h]

theorem alookup_append {α β : Type} [DecidableEq α] (l1 l2 : List (α × β)) (k : α) :
    alookup (l1 ++ l2) k = (alookup l1 k).or (alookup l2 k) := by
  induction l1 with
  | nil => simp [alookup]
  | cons p l1 ih =>
    by_cases h : p.1 = k
    · simp [alookup, h]
    · simp [alookup, h, ih]

/-- A single `_integrate` step keeps any property of the stored entry that
nested soft-merging cannot destroy. -/
theorem integrateStep_keeps (P : NRec → Prop) (hP : ∀ e r, P e → P (mergeNested e r))
    (cat : Catalog) (r : NRec) (s : String) (e : NRec)
    (he : alookup cat s = some e) (hPe : P e) :
    ∃ e', alookup (integrateStep cat r) s = some e' ∧ P e' := by
  cases htid : tidOf r with
  | none =>
    have hstep : integrateStep cat r = cat := by
      unfold integrateStep
      rw [htid]
    rw [hstep]
    exact ⟨e, he, hPe⟩
  | some s' =>
    cases hc : alookup cat s' with
    | none =>
      have hstep : integrateStep cat r = cat ++ [(s', r)] := by
        unfold integrateStep
        rw [htid]
        show (match alookup cat s' with
              | none => cat ++ [(s', r)]
              | some e2 => aset cat s' (mergeNested e2 r)) = cat ++ [(s', r)]
        rw [hc]
      rw [hstep]
      refine ⟨e, ?_, hPe⟩
      rw [alookup_append, he]
      rfl
    | some e2 =>
      have hstep : integrateStep cat r = aset cat s' (mergeNested e2 r) := by
        unfold integrateStep
        rw [htid]
        show (match alookup cat s' with
              | none => cat ++ [(s', r)]
              | some e3 => aset cat s' (mergeNested e3 r)) = aset cat s' (mergeNested e2 r)
        rw [hc]
      by_cases hs : s' = s
      · rw [hs] at hstep hc
        rw [hc] at he
        have he2 : e2 = e := by injection he
        rw [hstep, he2]
        exact ⟨mergeNested e r, by rw [alookup_aset_self], hP e r hPe⟩
      · rw [hstep]
        exact ⟨e, by rw [alookup_aset_ne _ _ _ _ hs, he], hPe⟩

theorem integrate_fold_keeps (P : NRec → Prop) (hP : ∀ e r, P e → P (mergeNested e r))
    (recs : List NRec) (cat : Catalog) (s : String) (e : NRec)
    (he : alookup cat s = some e) (hPe : P e) :
    ∃ e', alookup (recs.foldl integrateStep cat) s = some e' ∧ P e' := by
  induction recs generalizing cat e with
  | nil => exact ⟨e, he, hPe⟩
  | cons r recs ih =>
    obtain ⟨e1, he1, hPe1⟩ := integrateStep_keeps P hP cat r s e he hPe
    exact ih (integrateStep cat r) e1 he1 hPe1

/-- Records bearing other track ids never touch the entry at `s`. -/
theorem integrate_fold_skips (recs : List NRec) (cat : Catalog) (s : String)
    (h : ∀ r ∈ recs, tidOf r ≠ some s) :
    alookup (recs.foldl integrateStep cat) s = alookup cat s := by
  induction recs generalizing cat with
  | nil => rfl
  | cons r recs ih =>
    have hstep : alookup (integrateStep cat r) s = alookup cat s := by
      cases htid : tidOf r with
      | none =>
        have hs : integrateStep cat r = cat := by
          unfold integrateStep
          rw [htid]
        rw [hs]
      | some s' =>
        have hne : s' ≠ s := by
          intro hcon
          exact h r (by simp) (by rw [htid, hcon])
        cases hc : alookup cat s' with
        | none =>
          have hs : integrateStep cat r = cat ++ [(s', r)] := by
            unfold integrateStep
            rw [htid]
            show (match alookup cat s' with
                  | none => cat ++ [(s', r)]
                  | some e2 => aset cat s' (mergeNested e2 r)) = cat ++ [(s', r)]
            rw [hc]
          rw [hs, alookup_append]
          simp [alookup, hne]
        | some e2 =>
          have hs : integrateStep cat r = aset cat s' (mergeNested e2 r) := by
            unfold integrateStep
            rw [htid]
            show (match alookup cat s' with
                  | none => cat ++ [(s', r)]
                  | some e3 => aset cat s' (mergeNested e3 r)) = aset cat s' (mergeNested e2 r)
            rw [hc]
          rw [hs, alookup_aset_ne _ _ _ _ hne]
    rw [List.foldl_cons, ih (integrateStep cat r) (fun r' hm => h r' (by simp [hm])), hstep]

/-! ### Growth lemmas for the knowledge-base build: the two natural-id
association lists only ever grow, by pairs whose stored id is truthy. -/

theorem alookup_mem {α β : Type} [DecidableEq α] (l : List (α × β)) (k : α) (v : β)
    (h : alookup l k = some v) : (k, v) ∈ l := by
  induction l with
  | nil => simp [alookup] at h
  | cons p l ih =>
    obtain ⟨pk, pv⟩ := p
    by_cases hp : pk = k
    · subst hp
      rw [alookup, if_pos rfl] at h
      obtain rfl : pv = v := Option.some.inj h
      simp
    · rw [alookup, if_neg hp] at h
      exact List.mem_cons_of_mem _ (ih h)

theorem Grows.rfl (st : Know) : Grows st st :=
  ⟨[], [], by simp, by simp, by simp, by simp⟩

theorem Grows.trans {s1 s2 s3 : Know} (h1 : Grows s1 s2) (h2 : Grows s2 s3) :
    Grows s1 s3 := by
  obtain ⟨t1, u1, a1, b1, c1, d1⟩ := h1
  obtain ⟨t2, u2, a2, b2, c2, d2⟩ := h2
  refine ⟨t1 ++ t2, u1 ++ u2, ?_, ?_, ?_, ?_⟩
  · rw [a2, a1, List.append_assoc]
  · rw [b2, b1, List.append_assoc]
  · intro p hp
    rcases List.mem_append.mp hp with h | h
    exacts [c1 p h, c2 p h]
  · intro p hp
    rcases List.mem_append.mp hp with h | h
    exacts [d1 p h, d2 p h]

theorem foldl_grows {γ : Type} (step : Know → γ → Know)
    (hstep : ∀ st x, Grows st (step st x)) (l : List γ) (st : Know) :
    Grows st (l.foldl step st) := by
  induction l generalizing st with
  | nil => exact Grows.rfl st
  | cons x l ih => exact (hstep st x).trans (ih (step st x))

theorem scanArtist_grows (st : Know) (a : Dct) : Grows st (scanArtist st a) := by
  unfold scanArtist
  cases hn : normalizeName (dgetV a "artist_name") with
  | none =>
    by_cases h : (dgetV a "artist_id").truthy
    · exact ⟨[], [], by simp [h], by simp [h], by simp, by simp⟩
    · exact ⟨[], [], by simp [h], by simp [h], by simp, by simp⟩
  | some n =>
    by_cases h : (dgetV a "artist_id").truthy
    · by_cases h2 : alookup st.nameToId n = none
      · refine ⟨[(n, dgetV a "artist_id")], [], by simp [h, h2], by simp [h, h2], ?_, by simp⟩
        intro p hp
        rw [List.mem_singleton] at hp
        rw [hp]
        exact h
      · exact ⟨[], [], by simp [h, h2], by simp [h, h2], by simp, by simp⟩
    · exact ⟨[], [], by simp [h], by simp [h], by simp, by simp⟩

theorem scanAlbum_grows (st : Know) (album : Dct) (artists : List Dct) :
    Grows st (scanAlbum st album artists) := by
  unfold scanAlbum
  by_cases h : (dgetV album "album_name").truthy
  · simp only [h, if_true]
    by_cases h2 : (dgetV album "album_id").truthy
    · simp only [h2, if_true]
      repeat' split
      all_goals
        first
        | (refine ⟨[], [], ?_, ?_, ?_, ?_⟩ <;> (simp; done))
        | (refine ⟨[], [(_, dgetV album "album_id")], ?_, rfl, ?_, ?_⟩ <;> (simp [h2]; done))
    · simp only [h2, if_false]
      repeat' split
      all_goals
        first
        | (exact absurd ‹false = true› (by simp))
        | (refine ⟨[], [], ?_, ?_, ?_, ?_⟩ <;> (simp; done))
  · simp only [h, if_false]
    exact Grows.rfl st

theorem scanRecord_grows (st : Know) (r : NRec) : Grows st (scanRecord st r) := by
  unfold scanRecord
  exact (foldl_grows scanArtist scanArtist_grows r.artists st).trans
    (scanAlbum_grows _ r.album r.artists)

theorem scanAll_grows (recs : List NRec) : Grows initKnow (scanAll recs) :=
  foldl_grows scanRecord scanRecord_grows recs initKnow

theorem synthArtistId_truthy (n : String) : (Val.vstr (synthArtistId n)).truthy = true := by
  simp only [Val.truthy, synthArtistId, decide_eq_true_eq]
  intro h
  have := congrArg String.data h
  simp at this

theorem synthAlbumId_truthy (k : AKey) : (Val.vstr (synthAlbumId k)).truthy = true := by
  simp only [Val.truthy, synthAlbumId, decide_eq_true_eq]
  intro h
  have := congrArg String.data h
  simp at this

theorem mintArtistStep_grows (st : Know) (n : String) : Grows st (mintArtistStep st n) := by
  unfold mintArtistStep
  by_cases h : alookup st.nameToId n = none
  · refine ⟨[(n, .vstr (synthArtistId n))], [], by simp [h], by simp [h], ?_, by simp⟩
    intro p hp
    rw [List.mem_singleton] at hp
    rw [hp]
    exact synthArtistId_truthy n
  · exact ⟨[], [], by simp [h], by simp [h], by simp, by simp⟩

theorem mintAlbumStep_grows (st : Know) (k : AKey) : Grows st (mintAlbumStep st k) := by
  unfold mintAlbumStep
  by_cases h : alookup st.keyToId k = none
  · refine ⟨[], [(k, .vstr (synthAlbumId k))], by simp [h], by simp [h], by simp, ?_⟩
    intro p hp
    rw [List.mem_singleton] at hp
    rw [hp]
    exact synthAlbumId_truthy k
  · exact ⟨[], [], by simp [h], by simp [h], by simp, by simp⟩

theorem buildKnowledge_grows (σa : List String) (σb : List AKey) (recs : List NRec) :
    Grows (scanAll recs) (buildKnowledge σa σb recs) := by
  unfold buildKnowledge
  have h1 := foldl_grows mintArtistStep mintArtistStep_grows σa (scanAll recs)
  have h2 := foldl_grows mintAlbumStep mintAlbumStep_grows σb
    { σa.foldl mintArtistStep (scanAll recs) with
      idToInfo := (σa.foldl mintArtistStep (scanAll recs)).nameToId.foldl
        (fuseArtistPair (σa.foldl mintArtistStep (scanAll recs)).nameToInfo)
        (σa.foldl mintArtistStep (scanAll recs)).idToInfo }
  obtain ⟨t1, u1, a1, b1, c1, d1⟩ := h1
  obtain ⟨t2, u2, a2, b2, c2, d2⟩ := h2
  refine ⟨t1 ++ t2, u1 ++ u2, ?_, ?_, ?_, ?_⟩
  · rw [a2, a1, List.append_assoc]
  · rw [b2, b1, List.append_assoc]
  · intro p hp
    rcases List.mem_append.mp hp with h | h
    exacts [c1 p h, c2 p h]
  · intro p hp
    rcases List.mem_append.mp hp with h | h
    exacts [d1 p h, d2 p h]

/-- All ids stored in the two id lists of the finished knowledge base are
truthy (natural ids are guarded by `if aid:` in the scan, synthetic ids are
nonempty strings). -/
theorem buildKnowledge_truthy (σa : List String) (σb : List AKey) (recs : List NRec) :
    (∀ p ∈ (buildKnowledge σa σb recs).nameToId, p.2.truthy = true) ∧
    (∀ p ∈ (buildKnowledge σa σb recs).keyToId, p.2.truthy = true) := by
  have hg := (scanAll_grows recs).trans (buildKnowledge_grows σa σb recs)
  obtain ⟨t, u, ha, hb, hc, hd⟩ := hg
  constructor
  · intro p hp
    rw [ha] at hp
    rcases List.mem_append.mp hp with h | h
    · simp [initKnow] at h
    · exact hc p h
  · intro p hp
    rw [hb] at hp
    rcases List.mem_append.mp hp with h | h
    · simp [initKnow] at h
    · exact hd p h

/-! ### Enrichment-phase lemmas -/

theorem dgetV_truthy_dget (d : Dct) (k : String) (h : (dgetV d k).truthy = true) :
    dget d k = some (dgetV d k) := by
  unfold dgetV at h ⊢
  cases hc : dget d k with
  | none =>
    rw [hc] at h
    simp [Val.truthy] at h
  | some v => simp [hc]

theorem mergeInfo_keeps_truthy (d new : Dct) (k : String)
    (h : (dgetV d k).truthy = true) :
    dgetV (mergeInfo d new) k = dgetV d k := by
  have hd := dgetV_truthy_dget d k h
  have hp := mergeInfo_preserves d new k (dgetV d k) hd (Val.truthy_not_emptyish _ h)
  unfold dgetV
  rw [hp]
  rfl

theorem mapsLe_refl (m : Maps) : MapsLe m m :=
  ⟨fun _ _ h => h, fun _ _ h => h, rfl, rfl⟩

theorem mapsLe_trans {m1 m2 m3 : Maps} (h1 : MapsLe m1 m2) (h2 : MapsLe m2 m3) :
    MapsLe m1 m3 :=
  ⟨fun n v h => h2.1 n v (h1.1 n v h),
   fun k v h => h2.2.1 k v (h1.2.1 k v h),
   h2.2.2.1.trans h1.2.2.1,
   h2.2.2.2.trans h1.2.2.2⟩

theorem buildMaps_truthy (σa : List String) (σb : List AKey) (recs : List NRec) :
    MapsTruthy (buildKnowledge σa σb recs).toMaps := by
  obtain ⟨h1, h2⟩ := buildKnowledge_truthy σa σb recs
  constructor
  · intro n v hv
    exact h1 (n, v) (alookup_mem _ _ _ hv)
  · intro k v hv
    exact h2 (k, v) (alookup_mem _ _ _ hv)

/-- Full case analysis of the per-artist enrichment step. -/
theorem enrichArtist_cases (m : Maps) (a : Dct) :
    ((dgetV a "artist_id").truthy = true ∧
      (enrichArtist m a).2 = m ∧
      (enrichArtist m a).1 = (if m.idToInfo (dgetV a "artist_id") = [] then a
        else mergeInfo a (m.idToInfo (dgetV a "artist_id")))) ∨
    (∃ n, (dgetV a "artist_id").truthy = false ∧
      normalizeName (dgetV a "artist_name") = some n ∧
      ((m.nameToId n).getD .vnone).truthy = true ∧
      (enrichArtist m a).2 = m ∧
      (enrichArtist m a).1 =
        (if m.idToInfo ((m.nameToId n).getD .vnone) = []
         then dset a "artist_id" ((m.nameToId n).getD .vnone)
         else mergeInfo (dset a "artist_id" ((m.nameToId n).getD .vnone))
                (m.idToInfo ((m.nameToId n).getD .vnone)))) ∨
    (∃ n, (dgetV a "artist_id").truthy = false ∧
      normalizeName (dgetV a "artist_name") = some n ∧
      ((m.nameToId n).getD .vnone).truthy = false ∧
      (enrichArtist m a).2 = { m with nameToId := updOpt m.nameToId n (.vstr (synthArtistId n)) } ∧
      (enrichArtist m a).1 =
        (if m.idToInfo (.vstr (synthArtistId n)) = []
         then dset a "artist_id" (.vstr (synthArtistId n))
         else mergeInfo (dset a "artist_id" (.vstr (synthArtistId n)))
                (m.idToInfo (.vstr (synthArtistId n))))) ∨
    ((dgetV a "artist_id").truthy = false ∧
      normalizeName (dgetV a "artist_name") = none ∧
      (enrichArtist m a).1 = a ∧ (enrichArtist m a).2 = m) := by
  cases h0 : (dgetV a "artist_id").truthy with
  | true =>
    left
    refine ⟨rfl, ?_, ?_⟩ <;> (unfold enrichArtist; simp [h0])
  | false =>
    cases hn : normalizeName (dgetV a "artist_name") with
    | none =>
      right; right; right
      refine ⟨rfl, rfl, ?_, ?_⟩ <;> (unfold enrichArtist; simp [h0, hn])
    | some n =>
      cases hl : ((m.nameToId n).getD .vnone).truthy with
      | true =>
        right; left
        refine ⟨n, rfl, rfl, hl, ?_, ?_⟩ <;>
          (unfold enrichArtist; simp [h0, hn, hl])
      | false =>
        right; right; left
        refine ⟨n, rfl, rfl, hl, ?_, ?_⟩ <;>
          (unfold enrichArtist; simp [h0, hn, hl, synthArtistId_truthy])

theorem dgetV_dset_self (d : Dct) (k : String) (v : Val) : dgetV (dset d k v) k = v := by
  unfold dgetV
  rw [dget_dset_self]
  rfl

theorem dgetV_dset_ne (d : Dct) (k' k : String) (v : Val) (h : k' ≠ k) :
    dgetV (dset d k' v) k = dgetV d k := by
  unfold dgetV
  rw [dget_dset_ne _ _ _ _ h]

theorem enrichArtist_le (m : Maps) (a : Dct) (hm : MapsTruthy m) :
    MapsLe m (enrichArtist m a).2 ∧ MapsTruthy (enrichArtist m a).2 := by
  rcases enrichArtist_cases m a with ⟨h0, hm2, _⟩ | ⟨n, h0, hn, hl, hm2, _⟩ |
    ⟨n, h0, hn, hl, hm2, _⟩ | ⟨h0, hn, _, hm2⟩
  · rw [hm2]; exact ⟨mapsLe_refl m, hm⟩
  · rw [hm2]; exact ⟨mapsLe_refl m, hm⟩
  · rw [hm2]
    have hnone : m.nameToId n = none := by
      cases hc : m.nameToId n with
      | none => rfl
      | some v =>
        have hv := hm.1 n v hc
        rw [hc] at hl
        simp only [Option.getD_some] at hl
        rw [hv] at hl
        cases hl
    constructor
    · refine ⟨?_, fun k v h => h, rfl, rfl⟩
      intro n' v hv
      show updOpt m.nameToId n (.vstr (synthArtistId n)) n' = some v
      unfold updOpt
      by_cases he : n' = n
      · subst he
        rw [hnone] at hv
        cases hv
      · simp [he, hv]
    · constructor
      · intro n' v hv
        have hv' : updOpt m.nameToId n (.vstr (synthArtistId n)) n' = some v := hv
        unfold updOpt at hv'
        by_cases he : n' = n
        · rw [if_pos he] at hv'
          obtain rfl : Val.vstr (synthArtistId n) = v := Option.some.inj hv'
          exact synthArtistId_truthy n
        · rw [if_neg he] at hv'
          exact hm.1 n' v hv'
      · exact fun k v h => hm.2 k v h
  · rw [hm2]; exact ⟨mapsLe_refl m, hm⟩

theorem enrichArtist_result (m : Maps) (a : Dct) (hm : MapsTruthy m)
    (h : (normalizeName (dgetV (enrichArtist m a).1 "artist_name")).isSome = true) :
    (dgetV (enrichArtist m a).1 "artist_id").truthy = true := by
  rcases enrichArtist_cases m a with ⟨h0, _, ha⟩ | ⟨n, h0, hn, hl, _, ha⟩ |
    ⟨n, h0, hn, hl, _, ha⟩ | ⟨h0, hn, ha, _⟩
  · rw [ha]
    split
    · exact h0
    · rw [mergeInfo_keeps_truthy a _ _ h0]
      exact h0
  · rw [ha]
    have hbase : (dgetV (dset a "artist_id" ((m.nameToId n).getD .vnone)) "artist_id").truthy
        = true := by
      rw [dgetV_dset_self]
      exact hl
    split
    · exact hbase
    · rw [mergeInfo_keeps_truthy _ _ _ hbase]
      exact hbase
  · rw [ha]
    have hbase : (dgetV (dset a "artist_id" (.vstr (synthArtistId n))) "artist_id").truthy
        = true := by
      rw [dgetV_dset_self]
      exact synthArtistId_truthy n
    split
    · exact hbase
    · rw [mergeInfo_keeps_truthy _ _ _ hbase]
      exact hbase
  · rw [ha, hn] at h
    simp at h

theorem enrichFold_inv (arts : List Dct) :
    ∀ acc : List Dct × Maps, MapsTruthy acc.2 →
      MapsTruthy (arts.foldl enrichArtistStepAcc acc).2 ∧
      MapsLe acc.2 (arts.foldl enrichArtistStepAcc acc).2 ∧
      (∀ x ∈ (arts.foldl enrichArtistStepAcc acc).1,
        x ∈ acc.1 ∨ ∃ mx ax, MapsTruthy mx ∧ x = (enrichArtist mx ax).1) := by
  induction arts with
  | nil => exact fun acc hacc => ⟨hacc, mapsLe_refl _, fun x hx => Or.inl hx⟩
  | cons a arts ih =>
    intro acc hacc
    have hstep := enrichArtist_le acc.2 a hacc
    obtain ⟨ht', hle', hmem'⟩ := ih (enrichArtistStepAcc acc a) hstep.2
    refine ⟨ht', mapsLe_trans hstep.1 hle', ?_⟩
    intro x hx
    rcases hmem' x hx with hx' | hx'
    · rcases List.mem_append.mp hx' with hL | hR
      · exact Or.inl hL
      · right
        refine ⟨acc.2, a, hacc, ?_⟩
        simpa using hR
    · exact Or.inr hx'

theorem fillOwner_name (album0 : Dct) (artists1 : List Dct) :
    dgetV (fillOwner album0 artists1) "album_name" = dgetV album0 "album_name" := by
  unfold fillOwner
  repeat' split
  · rfl
  · exact dgetV_dset_ne _ _ _ _ (by decide)
  · rfl
  · rfl

theorem enrichAlbum_eq_none (m1 : Maps) (album0 : Dct) (artists1 : List Dct)
    (h : albumNorm album0 = none) :
    enrichAlbum m1 album0 artists1 =
      (let a1 := fillOwner album0 artists1
       ((if (dgetV a1 "album_id").truthy then
           (if m1.albumIdToInfo (dgetV a1 "album_id") = [] then a1
            else mergeInfo a1 (m1.albumIdToInfo (dgetV a1 "album_id")))
         else a1), m1)) := by
  unfold enrichAlbum
  dsimp only
  rw [h]

theorem enrichAlbum_eq_aid (m1 : Maps) (album0 : Dct) (artists1 : List Dct) (n : String)
    (h : albumNorm album0 = some n)
    (h1 : (dgetV (fillOwner album0 artists1) "album_id").truthy = true) :
    enrichAlbum m1 album0 artists1 =
      (let a1 := fillOwner album0 artists1
       ((if m1.albumIdToInfo (dgetV a1 "album_id") = [] then a1
         else mergeInfo a1 (m1.albumIdToInfo (dgetV a1 "album_id"))), m1)) := by
  unfold enrichAlbum
  dsimp only
  rw [h]
  dsimp only
  rw [if_pos (show (dgetV (fillOwner album0 artists1) "album_id").truthy = true from h1)]
  dsimp only
  rw [if_pos (show (dgetV (fillOwner album0 artists1) "album_id").truthy = true from h1)]

theorem enrichAlbum_eq_hit (m1 : Maps) (album0 : Dct) (artists1 : List Dct) (n : String)
    (h : albumNorm album0 = some n)
    (h1 : (dgetV (fillOwner album0 artists1) "album_id").truthy = false)
    (h2 : ((m1.keyToId (some n, dgetV (fillOwner album0 artists1)
        "album_artist_owner_id")).getD .vnone).truthy = true) :
    enrichAlbum m1 album0 artists1 =
      (let looked := (m1.keyToId (some n, dgetV (fillOwner album0 artists1)
          "album_artist_owner_id")).getD .vnone
       let a2 := dset (fillOwner album0 artists1) "album_id" looked
       ((if m1.albumIdToInfo looked = [] then a2 else mergeInfo a2 (m1.albumIdToInfo looked)),
        m1)) := by
  unfold enrichAlbum
  dsimp only
  rw [h]
  dsimp only
  rw [if_neg (show ¬((dgetV (fillOwner album0 artists1) "album_id").truthy = true) from
        by simp [h1])]
  rw [if_pos (show ((m1.keyToId (some n, dgetV (fillOwner album0 artists1)
        "album_artist_owner_id")).getD .vnone).truthy = true from h2)]
  dsimp only
  rw [if_pos (show ((m1.keyToId (some n, dgetV (fillOwner album0 artists1)
        "album_artist_owner_id")).getD .vnone).truthy = true from h2)]

theorem enrichAlbum_eq_mint (m1 : Maps) (album0 : Dct) (artists1 : List Dct) (n : String)
    (h : albumNorm album0 = some n)
    (h1 : (dgetV (fillOwner album0 artists1) "album_id").truthy = false)
    (h2 : ((m1.keyToId (some n, dgetV (fillOwner album0 artists1)
        "album_artist_owner_id")).getD .vnone).truthy = false) :
    enrichAlbum m1 album0 artists1 =
      (let sid : Val := .vstr (synthAlbumId (some n, dgetV (fillOwner album0 artists1)
          "album_artist_owner_id"))
       let a2 := dset (fillOwner album0 artists1) "album_id" sid
       ((if m1.albumIdToInfo sid = [] then a2 else mergeInfo a2 (m1.albumIdToInfo sid)),
        { m1 with keyToId := updOpt m1.keyToId (some n, dgetV (fillOwner album0 artists1)
            "album_artist_owner_id") sid })) := by
  unfold enrichAlbum
  dsimp only
  rw [h]
  dsimp only
  rw [if_neg (show ¬((dgetV (fillOwner album0 artists1) "album_id").truthy = true) from
        by simp [h1])]
  rw [if_neg (show ¬(((m1.keyToId (some n, dgetV (fillOwner album0 artists1)
        "album_artist_owner_id")).getD .vnone).truthy = true) from by simp [h2])]
  dsimp only
  rw [if_pos (show (Val.vstr (synthAlbumId (some n, dgetV (fillOwner album0 artists1)
        "album_artist_owner_id"))).truthy = true from synthAlbumId_truthy _)]

theorem enrichAlbum_maps (m1 : Maps) (album0 : Dct) (artists1 : List Dct)
    (hm : MapsTruthy m1) :
    MapsLe m1 (enrichAlbum m1 album0 artists1).2 ∧
    MapsTruthy (enrichAlbum m1 album0 artists1).2 := by
  cases hnn : albumNorm album0 with
  | none =>
    rw [enrichAlbum_eq_none m1 album0 artists1 hnn]
    exact ⟨mapsLe_refl m1, hm⟩
  | some n =>
    cases h1 : (dgetV (fillOwner album0 artists1) "album_id").truthy with
    | true =>
      rw [enrichAlbum_eq_aid m1 album0 artists1 n hnn h1]
      exact ⟨mapsLe_refl m1, hm⟩
    | false =>
      cases h2 : ((m1.keyToId (some n, dgetV (fillOwner album0 artists1)
          "album_artist_owner_id")).getD .vnone).truthy with
      | true =>
        rw [enrichAlbum_eq_hit m1 album0 artists1 n hnn h1 h2]
        exact ⟨mapsLe_refl m1, hm⟩
      | false =>
        rw [enrichAlbum_eq_mint m1 album0 artists1 n hnn h1 h2]
        have hnone : m1.keyToId (some n, dgetV (fillOwner album0 artists1)
            "album_artist_owner_id") = none := by
          cases hc : m1.keyToId (some n, dgetV (fillOwner album0 artists1)
              "album_artist_owner_id") with
          | none => rfl
          | some v =>
            have hv := hm.2 _ v hc
            rw [hc] at h2
            simp only [Option.getD_some] at h2
            rw [hv] at h2
            cases h2
        constructor
        · refine ⟨fun n' v h => h, ?_, rfl, rfl⟩
          intro k' v hv
          show updOpt m1.keyToId _ _ k' = some v
          unfold updOpt
          by_cases he : k' = (some n, dgetV (fillOwner album0 artists1) "album_artist_owner_id")
          · subst he
            rw [hnone] at hv
            cases hv
          · simp [he, hv]
        · constructor
          · exact fun n' v h => hm.1 n' v h
          · intro k' v hv
            have hv' : updOpt m1.keyToId
                (some n, dgetV (fillOwner album0 artists1) "album_artist_owner_id")
                (.vstr (synthAlbumId (some n, dgetV (fillOwner album0 artists1)
                  "album_artist_owner_id"))) k' = some v := hv
            unfold updOpt at hv'
            by_cases he : k' = (some n, dgetV (fillOwner album0 artists1) "album_artist_owner_id")
            · rw [if_pos he] at hv'
              obtain rfl : Val.vstr (synthAlbumId _) = v := Option.some.inj hv'
              exact synthAlbumId_truthy _
            · rw [if_neg he] at hv'
              exact hm.2 k' v hv'

theorem enrichAlbum_id (m1 : Maps) (album0 : Dct) (artists1 : List Dct)
    (n : String) (h : albumNorm album0 = some n) :
    (dgetV (enrichAlbum m1 album0 artists1).1 "album_id").truthy = true := by
  cases h1 : (dgetV (fillOwner album0 artists1) "album_id").truthy with
  | true =>
    rw [enrichAlbum_eq_aid m1 album0 artists1 n h h1]
    dsimp only
    split
    · exact h1
    · rw [mergeInfo_keeps_truthy _ _ _ h1]
      exact h1
  | false =>
    cases h2 : ((m1.keyToId (some n, dgetV (fillOwner album0 artists1)
        "album_artist_owner_id")).getD .vnone).truthy with
    | true =>
      rw [enrichAlbum_eq_hit m1 album0 artists1 n h h1 h2]
      dsimp only
      have hbase : (dgetV (dset (fillOwner album0 artists1) "album_id"
          ((m1.keyToId (some n, dgetV (fillOwner album0 artists1)
            "album_artist_owner_id")).getD .vnone)) "album_id").truthy = true := by
        rw [dgetV_dset_self]
        exact h2
      split
      · exact hbase
      · rw [mergeInfo_keeps_truthy _ _ _ hbase]
        exact hbase
    | false =>
      rw [enrichAlbum_eq_mint m1 album0 artists1 n h h1 h2]
      dsimp only
      have hbase : (dgetV (dset (fillOwner album0 artists1) "album_id"
          (.vstr (synthAlbumId (some n, dgetV (fillOwner album0 artists1)
            "album_artist_owner_id")))) "album_id").truthy = true := by
        rw [dgetV_dset_self]
        exact synthAlbumId_truthy _
      split
      · exact hbase
      · rw [mergeInfo_keeps_truthy _ _ _ hbase]
        exact hbase

theorem enrichAlbum_nn_none (m1 : Maps) (album0 : Dct) (artists1 : List Dct)
    (h : albumNorm album0 = none) :
    (enrichAlbum m1 album0 artists1).2 = m1 ∧
    ((dgetV (fillOwner album0 artists1) "album_id").truthy = true →
      (dgetV (enrichAlbum m1 album0 artists1).1 "album_id").truthy = true) ∧
    ((dgetV (fillOwner album0 artists1) "album_id").truthy = false →
      (enrichAlbum m1 album0 artists1).1 = fillOwner album0 artists1) := by
  rw [enrichAlbum_eq_none m1 album0 artists1 h]
  dsimp only
  refine ⟨rfl, ?_, ?_⟩
  · intro ht
    rw [if_pos (show (dgetV (fillOwner album0 artists1) "album_id").truthy = true from ht)]
    split
    · exact ht
    · rw [mergeInfo_keeps_truthy _ _ _ ht]
      exact ht
  · intro hf
    rw [if_neg (show ¬((dgetV (fillOwner album0 artists1) "album_id").truthy = true) from
          by simp [hf])]

theorem enrichRecord_inv (m : Maps) (r : NRec) (hm : MapsTruthy m) :
    MapsLe m (enrichRecord m r).2 ∧ MapsTruthy (enrichRecord m r).2 := by
  have hf := enrichFold_inv r.artists ([], m) hm
  have ha := enrichAlbum_maps (enrichArtistsFold m r.artists).2 r.album
    (enrichArtistsFold m r.artists).1 hf.1
  exact ⟨mapsLe_trans hf.2.1 ha.1, ha.2⟩

theorem enrichRecord_artists_ok (m : Maps) (r : NRec) (hm : MapsTruthy m) :
    ∀ x ∈ (enrichRecord m r).1.artists,
      (normalizeName (dgetV x "artist_name")).isSome = true →
      (dgetV x "artist_id").truthy = true := by
  intro x hx hname
  have hf := enrichFold_inv r.artists ([], m) hm
  rcases hf.2.2 x hx with hmem | ⟨mx, ax, hmx, hxe⟩
  · simp at hmem
  · rw [hxe] at hname ⊢
    exact enrichArtist_result mx ax hmx hname

theorem enrichRecord_album_ok (m : Maps) (r : NRec) (hm : MapsTruthy m)
    (ht : (dgetV (enrichRecord m r).1.album "album_name").truthy = true)
    (hn : (normalizeName (dgetV (enrichRecord m r).1.album "album_name")).isSome = true) :
    (dgetV (enrichRecord m r).1.album "album_id").truthy = true := by
  have ht' : (dgetV (enrichAlbum (enrichArtistsFold m r.artists).2 r.album
      (enrichArtistsFold m r.artists).1).1 "album_name").truthy = true := ht
  have hn' : (normalizeName (dgetV (enrichAlbum (enrichArtistsFold m r.artists).2 r.album
      (enrichArtistsFold m r.artists).1).1 "album_name")).isSome = true := hn
  show (dgetV (enrichAlbum (enrichArtistsFold m r.artists).2 r.album
      (enrichArtistsFold m r.artists).1).1 "album_id").truthy = true
  cases hann : albumNorm r.album with
  | some n0 => exact enrichAlbum_id _ r.album _ n0 hann
  | none =>
    obtain ⟨_, htr, hfl⟩ := enrichAlbum_nn_none (enrichArtistsFold m r.artists).2 r.album
      (enrichArtistsFold m r.artists).1 hann
    cases haid : (dgetV (fillOwner r.album (enrichArtistsFold m r.artists).1)
        "album_id").truthy with
    | true => exact htr haid
    | false =>
      exfalso
      have hout := hfl haid
      rw [hout] at ht' hn'
      rw [fillOwner_name] at ht' hn'
      unfold albumNorm at hann
      rw [if_pos ht'] at hann
      rw [hann] at hn'
      simp at hn'

theorem enrichAllFold_inv (recs : List NRec) :
    ∀ acc : List NRec × Maps, MapsTruthy acc.2 →
      MapsTruthy (recs.foldl enrichStepAcc acc).2 ∧
      MapsLe acc.2 (recs.foldl enrichStepAcc acc).2 ∧
      (∀ x ∈ (recs.foldl enrichStepAcc acc).1,
        x ∈ acc.1 ∨ ∃ mx rx, MapsTruthy mx ∧ x = (enrichRecord mx rx).1) := by
  induction recs with
  | nil => exact fun acc hacc => ⟨hacc, mapsLe_refl _, fun x hx => Or.inl hx⟩
  | cons r recs ih =>
    intro acc hacc
    have hstep := enrichRecord_inv acc.2 r hacc
    obtain ⟨ht', hle', hmem'⟩ := ih (enrichStepAcc acc r) hstep.2
    refine ⟨ht', mapsLe_trans hstep.1 hle', ?_⟩
    intro x hx
    rcases hmem' x hx with hx' | hx'
    · rcases List.mem_append.mp hx' with hL | hR
      · exact Or.inl hL
      · right
        refine ⟨acc.2, r, hacc, ?_⟩
        simpa using hR
    · exact Or.inr hx'

/-! ### Lemmas about the artist-list merge -/

theorem alookup_none_iff {α β : Type} [DecidableEq α] (l : List (α × β)) (k : α) :
    alookup l k = none ↔ k ∉ l.map Prod.fst := by
  induction l with
  | nil => simp [alookup]
  | cons p l ih =>
    by_cases h : p.1 = k
    · simp [alookup, h]
    · simp [alookup, h, ih, Ne.symm h]

theorem aset_map_fst {α β : Type} [DecidableEq α] (m : List (α × β)) (k : α) (v : β) :
    (aset m k v).map Prod.fst =
      (if k ∈ m.map Prod.fst then m.map Prod.fst else m.map Prod.fst ++ [k]) := by
  induction m with
  | nil => simp [aset]
  | cons q m ih =>
    obtain ⟨qk, qv⟩ := q
    by_cases h : qk = k
    · subst h
      simp [aset]
    · rw [aset, if_neg h, List.map_cons, ih, List.map_cons]
      by_cases hm : k ∈ m.map Prod.fst
      · simp [hm, Ne.symm h]
      · simp [hm, Ne.symm h]

theorem aset_nodup {α β : Type} [DecidableEq α] (m : List (α × β)) (k : α) (v : β)
    (hnd : (m.map Prod.fst).Nodup) : ((aset m k v).map Prod.fst).Nodup := by
  rw [aset_map_fst]
  by_cases hm : k ∈ m.map Prod.fst
  · simpa [hm]
  · simp only [hm, if_false]
    simpa [List.nodup_append, hm]

theorem aset_entries {α β : Type} [DecidableEq α] (m : List (α × β)) (k : α) (v : β)
    (hnd : (m.map Prod.fst).Nodup) :
    ∀ p ∈ aset m k v, p = (k, v) ∨ (p ∈ m ∧ p.1 ≠ k) := by
  induction m with
  | nil =>
    intro p hp
    rw [aset] at hp
    rcases List.mem_singleton.mp hp with hp
    exact Or.inl hp
  | cons q m ih =>
    obtain ⟨qk, qv⟩ := q
    intro p hp
    simp only [List.map_cons, List.nodup_cons] at hnd
    by_cases h : qk = k
    · subst h
      rw [aset, if_pos rfl] at hp
      rcases List.mem_cons.mp hp with hp | hp
      · exact Or.inl hp
      · refine Or.inr ⟨List.mem_cons_of_mem _ hp, ?_⟩
        intro he
        exact hnd.1 (he ▸ List.mem_map_of_mem Prod.fst hp)
    · rw [aset, if_neg h] at hp
      rcases List.mem_cons.mp hp with hp | hp
      · subst hp
        exact Or.inr ⟨by simp, h⟩
      · rcases ih hnd.2 p hp with hp' | hp'
        · exact Or.inl hp'
        · exact Or.inr ⟨List.mem_cons_of_mem _ hp'.1, hp'.2⟩

theorem dset_eq_aset (d : Dct) (k : String) (v : Val) : dset d k v = aset d k v := by
  induction d with
  | nil => rfl
  | cons p d ih =>
    by_cases h : p.1 = k
    · simp [dset, aset, h]
    · simp [dset, aset, h, ih]

theorem dset_nodup (d : Dct) (k : String) (v : Val)
    (hnd : (d.map Prod.fst).Nodup) : ((dset d k v).map Prod.fst).Nodup := by
  rw [dset_eq_aset]
  exact aset_nodup d k v hnd

theorem mergeInfo_nodup (base new : Dct) (hnd : (base.map Prod.fst).Nodup) :
    ((mergeInfo base new).map Prod.fst).Nodup := by
  induction new generalizing base with
  | nil => simpa [mergeInfo_nil]
  | cons kv rest ih =>
    rw [mergeInfo_cons]
    apply ih
    unfold mergeStep
    by_cases h1 : kv.2 = Val.vnone
    · simpa [h1]
    · simp only [h1, if_false]
      cases hb : dget base kv.1 with
      | none => exact dset_nodup _ _ _ hnd
      | some w =>
        by_cases he : w.isEmptyish <;> simp [he, dset_nodup _ _ _ hnd, hnd]

/-- Full per-key description of one soft merge (duplicate-free `new`). -/
theorem mergeInfo_dget (a b : Dct) (k : String) (hnd : (b.map Prod.fst).Nodup) :
    dget (mergeInfo a b) k =
      (match dget a k, dget b k with
       | some v, some w =>
         if v.isEmptyish then (if w = Val.vnone then some v else some w) else some v
       | some v, none => some v
       | none, some w => if w = Val.vnone then none else some w
       | none, none => none) := by
  induction b generalizing a with
  | nil =>
    rw [mergeInfo_nil]
    cases dget a k <;> simp [dget]
  | cons kv rest ih =>
    obtain ⟨k0, v0⟩ := kv
    rw [mergeInfo_cons]
    by_cases hk : k0 = k
    · subst hk
      have hnotin : k0 ∉ rest.map Prod.fst := by
        simp only [List.map_cons, List.nodup_cons] at hnd
        exact hnd.1
      have hout : ∀ kv' ∈ rest, kv'.1 ≠ k0 := by
        intro kv' hm he
        exact hnotin (he ▸ List.mem_map_of_mem Prod.fst hm)
      rw [mergeInfo_dget_not_mem _ _ _ hout]
      have hbk : dget ((k0, v0) :: rest) k0 = some v0 := by simp [dget]
      rw [hbk]
      unfold mergeStep
      dsimp only
      by_cases h1 : v0 = Val.vnone
      · rw [if_pos h1]
        cases ha : dget a k0 with
        | some v => simp [h1]
        | none => simp [h1]
      · rw [if_neg h1]
        cases ha : dget a k0 with
        | none => simp [dget_dset_self, h1]
        | some w =>
          by_cases he : w.isEmptyish
          · simp [he, dget_dset_self, h1]
          · simp [he, ha, h1]
    · have hnd' : (rest.map Prod.fst).Nodup := by
        simp only [List.map_cons, List.nodup_cons] at hnd
        exact hnd.2
      rw [ih (mergeStep a (k0, v0)) hnd']
      rw [mergeStep_dget_ne a (k0, v0) k hk]
      have hbk : dget ((k0, v0) :: rest) k = dget rest k := by simp [dget, hk]
      rw [hbk]

/-- Every field of a soft-merge result comes from one of the two sides. -/
theorem dgetV_mergeInfo_cases (a b : Dct) (k : String) (hnd : (b.map Prod.fst).Nodup) :
    dgetV (mergeInfo a b) k = dgetV a k ∨ dgetV (mergeInfo a b) k = dgetV b k := by
  unfold dgetV
  rw [mergeInfo_dget a b k hnd]
  cases ha : dget a k with
  | none =>
    cases hb : dget b k with
    | none => simp
    | some w =>
      by_cases hw : w = Val.vnone
      · subst hw
        simp
      · simp [hw]
  | some v =>
    cases hb : dget b k with
    | none => simp
    | some w =>
      by_cases hv : v.isEmptyish
      · by_cases hw : w = Val.vnone
        · subst hw
          simp [hv]
        · simp [hv, hw]
      · simp [hv]

theorem keyFor_eq_true_iff (a : Dct) (s : String) :
    keyFor a = (true, s) ↔
      (dgetV a "artist_id").truthy = true ∧ pyStr (dgetV a "artist_id") = s := by
  unfold keyFor
  by_cases h : (dgetV a "artist_id").truthy <;> simp [h]

theorem keyFor_eq_false_iff (a : Dct) (s : String) :
    keyFor a = (false, s) ↔
      (dgetV a "artist_id").truthy = false ∧
        (normalizeName (dgetV a "artist_name")).getD "" = s := by
  unfold keyFor
  by_cases h : (dgetV a "artist_id").truthy <;> simp [h]

/-- De-duplication keys survive a soft merge of two same-key references. -/
theorem keyFor_mergeInfo (a b : Dct) (k : AK) (hnd : (b.map Prod.fst).Nodup)
    (ha : keyFor a = k) (hb : keyFor b = k) : keyFor (mergeInfo a b) = k := by
  obtain ⟨kb, ks⟩ := k
  cases kb with
  | true =>
    obtain ⟨h1, h2⟩ := (keyFor_eq_true_iff a ks).mp ha
    rw [keyFor_eq_true_iff, mergeInfo_keeps_truthy a b "artist_id" h1]
    exact ⟨h1, h2⟩
  | false =>
    obtain ⟨ha1, ha2⟩ := (keyFor_eq_false_iff a ks).mp ha
    obtain ⟨hb1, hb2⟩ := (keyFor_eq_false_iff b ks).mp hb
    rw [keyFor_eq_false_iff]
    constructor
    · rcases dgetV_mergeInfo_cases a b "artist_id" hnd with h | h <;> rw [h] <;> assumption
    · rcases dgetV_mergeInfo_cases a b "artist_name" hnd with h | h <;> rw [h] <;> assumption

theorem mergeBaseStep_inv (m : List (AK × Dct)) (a : Dct) (hok : MapOk m) :
    MapOk (mergeBaseStep m a) ∧
    (∀ k, k ∈ (mergeBaseStep m a).map Prod.fst ↔ k ∈ m.map Prod.fst ∨ k = keyFor a) := by
  constructor
  · constructor
    · exact aset_nodup m (keyFor a) a hok.1
    · intro p hp
      rcases aset_entries m (keyFor a) a hok.1 p hp with hp | hp
      · rw [hp]
      · exact hok.2 p hp.1
  · intro k
    rw [mergeBaseStep, aset_map_fst]
    by_cases hm : keyFor a ∈ m.map Prod.fst
    · simp only [hm, if_true]
      constructor
      · exact fun h => Or.inl h
      · intro h
        rcases h with h | h
        · exact h
        · exact h ▸ hm
    · simp [hm]

theorem mergeNewStep_inv (m : List (AK × Dct)) (a : Dct) (hok : MapOk m)
    (hnd : (a.map Prod.fst).Nodup) :
    MapOk (mergeNewStep m a) ∧
    (∀ k, k ∈ (mergeNewStep m a).map Prod.fst ↔ k ∈ m.map Prod.fst ∨ k = keyFor a) := by
  unfold mergeNewStep
  cases hl : alookup m (keyFor a) with
  | some e =>
    have hmem : (keyFor a, e) ∈ m := alookup_mem m (keyFor a) e hl
    have hkey : keyFor e = keyFor a := hok.2 _ hmem
    have hkeep : keyFor (mergeInfo e a) = keyFor a :=
      keyFor_mergeInfo e a (keyFor a) hnd hkey rfl
    constructor
    · constructor
      · exact aset_nodup m (keyFor a) _ hok.1
      · intro p hp
        rcases aset_entries m (keyFor a) _ hok.1 p hp with hp | hp
        · rw [hp]
          exact hkeep
        · exact hok.2 p hp.1
    · intro k
      rw [aset_map_fst]
      have hin : keyFor a ∈ m.map Prod.fst := List.mem_map_of_mem Prod.fst hmem
      simp only [hin, if_true]
      constructor
      · exact fun h => Or.inl h
      · intro h
        rcases h with h | h
        · exact h
        · exact h ▸ hin
  | none =>
    have hnotin : keyFor a ∉ m.map Prod.fst := (alookup_none_iff m (keyFor a)).mp hl
    constructor
    · constructor
      · rw [List.map_append]
        refine List.Nodup.append hok.1 (by simp) ?_
        intro x hx hxk
        rw [List.map_singleton, List.mem_singleton] at hxk
        subst hxk
        exact hnotin hx
      · intro p hp
        rcases List.mem_append.mp hp with hp | hp
        · exact hok.2 p hp
        · rw [List.mem_singleton.mp hp]
    · intro k
      simp [List.mem_append]

theorem mergeBase_fold_inv (base : List Dct) :
    ∀ m, MapOk m →
      MapOk (base.foldl mergeBaseStep m) ∧
      (∀ k, k ∈ (base.foldl mergeBaseStep m).map Prod.fst ↔
        k ∈ m.map Prod.fst ∨ ∃ a ∈ base, keyFor a = k) := by
  induction base with
  | nil => exact fun m hok => ⟨hok, by simp⟩
  | cons a base ih =>
    intro m hok
    have hstep := mergeBaseStep_inv m a hok
    obtain ⟨hok', hkeys'⟩ := ih (mergeBaseStep m a) hstep.1
    refine ⟨hok', ?_⟩
    intro k
    rw [List.foldl_cons] at *
    rw [hkeys' k]
    rw [hstep.2 k]
    constructor
    · rintro ((h | h) | h)
      · exact Or.inl h
      · exact Or.inr ⟨a, by simp, h.symm⟩
      · obtain ⟨x, hx, hk⟩ := h
        exact Or.inr ⟨x, by simp [hx], hk⟩
    · rintro (h | ⟨x, hx, hk⟩)
      · exact Or.inl (Or.inl h)
      · rcases List.mem_cons.mp hx with hx | hx
        · exact Or.inl (Or.inr (hx ▸ hk.symm))
        · exact Or.inr ⟨x, hx, hk⟩

theorem mergeNew_fold_inv (new : List Dct) (hnd : ∀ a ∈ new, (a.map Prod.fst).Nodup) :
    ∀ m, MapOk m →
      MapOk (new.foldl mergeNewStep m) ∧
      (∀ k, k ∈ (new.foldl mergeNewStep m).map Prod.fst ↔
        k ∈ m.map Prod.fst ∨ ∃ a ∈ new, keyFor a = k) := by
  induction new with
  | nil => exact fun m hok => ⟨hok, by simp⟩
  | cons a new ih =>
    intro m hok
    have hstep := mergeNewStep_inv m a hok (hnd a (by simp))
    obtain ⟨hok', hkeys'⟩ := ih (fun x hx => hnd x (by simp [hx])) (mergeNewStep m a) hstep.1
    refine ⟨hok', ?_⟩
    intro k
    rw [List.foldl_cons] at *
    rw [hkeys' k]
    rw [hstep.2 k]
    constructor
    · rintro ((h | h) | h)
      · exact Or.inl h
      · exact Or.inr ⟨a, by simp, h.symm⟩
      · obtain ⟨x, hx, hk⟩ := h
        exact Or.inr ⟨x, by simp [hx], hk⟩
    · rintro (h | ⟨x, hx, hk⟩)
      · exact Or.inl (Or.inl h)
      · rcases List.mem_cons.mp hx with hx | hx
        · exact Or.inl (Or.inr (hx ▸ hk.symm))
        · exact Or.inr ⟨x, hx, hk⟩

theorem countP_keys_nodup {α : Type} [DecidableEq α] (l : List α) (k : α) (h : l.Nodup) :
    l.countP (fun x => x = k) = if k ∈ l then 1 else 0 := by
  induction l with
  | nil => simp
  | cons a l ih =>
    simp only [List.nodup_cons] at h
    rw [List.countP_cons, ih h.2]
    by_cases ha : a = k
    · subst ha
      simp [h.1]
    · simp [ha, Ne.symm ha]

/-- The merged artist list holds exactly one entry per de-duplication key
that is represented in either input (for duplicate-free incoming dicts). -/
theorem mergeArtistLists_count (base new : List Dct) (k : AK)
    (hnd : ∀ a ∈ new, (a.map Prod.fst).Nodup) :
    (mergeArtistLists base new).countP (fun e => keyFor e = k)
      = if (∃ a ∈ base, keyFor a = k) ∨ (∃ a ∈ new, keyFor a = k) then 1 else 0 := by
  have hbase := mergeBase_fold_inv base [] ⟨by simp, by simp⟩
  have hnew := mergeNew_fold_inv new hnd (base.foldl mergeBaseStep []) hbase.1
  unfold mergeArtistLists
  rw [List.countP_map]
  have h1 : ((new.foldl mergeNewStep (base.foldl mergeBaseStep [])).countP
      ((fun e => decide (keyFor e = k)) ∘ Prod.snd))
      = ((new.foldl mergeNewStep (base.foldl mergeBaseStep [])).countP
        (fun p => decide (p.1 = k))) := by
    apply List.countP_congr
    intro p hp
    simp only [Function.comp_apply, decide_eq_true_eq]
    rw [hnew.1.2 p hp]
  rw [h1]
  have h2 : ((new.foldl mergeNewStep (base.foldl mergeBaseStep [])).countP
      (fun p => decide (p.1 = k)))
      = (((new.foldl mergeNewStep (base.foldl mergeBaseStep [])).map Prod.fst).countP
        (fun x => decide (x = k))) := by
    rw [List.countP_map]
    rfl
  rw [h2, countP_keys_nodup _ k hnew.1.1]
  have h3 := hnew.2 k
  rw [hbase.2 k] at h3
  by_cases hex : (∃ a ∈ base, keyFor a = k) ∨ (∃ a ∈ new, keyFor a = k)
  · rw [if_pos hex, if_pos]
    rw [h3]
    rcases hex with h | h
    · exact Or.inl (Or.inr h)
    · exact Or.inr h
  · rw [if_neg hex, if_neg]
    rw [h3]
    intro hcon
    rcases hcon with (h | h) | h
    · simp at h
    · exact hex (Or.inl h)
    · exact hex (Or.inr h)

/-- C8: first-writer-wins in the knowledge-base scan: once
`artist_name_to_id` maps a normalized name to an id, processing any later
artist reference (in particular one with the same name and a different
natural id), and any later records at all, leaves the mapping unchanged. -/
theorem claim_c8_first_writer_name_map (n : String) (v : Val) :
    (∀ st a, alookup st.nameToId n = some v → alookup (scanArtist st a).nameToId n = some v) ∧
    (∀ recs1 recs2, alookup (scanAll recs1).nameToId n = some v →
      alookup (scanAll (recs1 ++ recs2)).nameToId n = some v) := by
  have hmono : ∀ st st', Grows st st' → alookup st.nameToId n = some v →
      alookup st'.nameToId n = some v := by
    intro st st' hg hv
    obtain ⟨t, u, ha, hb, _, _⟩ := hg
    rw [ha, alookup_append, hv]
    rfl
  constructor
  · intro st a hv
    exact hmono st _ (scanArtist_grows st a) hv
  · intro recs1 recs2 hv
    have hsplit : scanAll (recs1 ++ recs2) = recs2.foldl scanRecord (scanAll recs1) := by
      simp [scanAll, List.foldl_append]
    rw [hsplit]
    exact hmono _ _ (foldl_grows scanRecord scanRecord_grows recs2 (scanAll recs1)) hv

/-- Witness for C8: a later reference with name "x" but a different id
"A2" does not repoint the mapping "x" → "A1". -/
theorem claim_c8_first_writer_name_map_witness :
    alookup (scanAll
        [⟨[], [], [[("artist_name", Val.vstr "x"), ("artist_id", Val.vstr "A1")]]⟩,
         ⟨[], [], [[("artist_name", Val.vstr "x"), ("artist_id", Val.vstr "A2")]]⟩]).nameToId "x"
      = some (Val.vstr "A1") :=
  (claim_c8_first_writer_name_map "x" (Val.vstr "A1")).2
    [⟨[], [], [[("artist_name", Val.vstr "x"), ("artist_id", Val.vstr "A1")]]⟩]
    [⟨[], [], [[("artist_name", Val.vstr "x"), ("artist_id", Val.vstr "A2")]]⟩]
    (by decide)

/-- C9: `_normalize_name` is a pure total function: `None`, empty and
whitespace-only inputs yield no key (never an empty-string key), any input
with a non-whitespace character yields a key, and every returned key is
case-folded and whitespace-collapsed: single spaces only, never two in a
row, none at either end. -/
theorem claim_c9_normalizer (v : Val) (s r : String) :
    (normalizeName Val.vnone = none) ∧
    ((∀ c ∈ s.data, isWs c = true) → normalizeName (.vstr s) = none) ∧
    ((∃ c ∈ s.data, isWs c = false) → (normalizeName (.vstr s)).isSome = true) ∧
    (normalizeName v = some r →
      r ≠ "" ∧ (∀ c ∈ r.data, Char.toLower c = c) ∧ (∀ c ∈ r.data, isWs c = true → c = ' ') ∧
      noDoubleWs r.data = true ∧ (∀ c, r.data.head? = some c → isWs c = false) ∧
      (∀ c, r.data.getLast? = some c → isWs c = false)) ∧
    normalizeName (.vstr " The  GREATEST   hits ") = some "the greatest hits" := by
  refine ⟨rfl, ?_, ?_, ?_, by decide⟩
  · intro h
    exact normCore_all_ws s.data h
  · intro h
    exact normCore_isSome s.data h
  · intro h
    cases v with
    | vnone => cases h
    | vbool b => exact normCore_some _ r h
    | vint n => exact normCore_some _ r h
    | vstr t => exact normCore_some _ r h
    | vlist l => exact normCore_some _ r h

/-- Witness for C9 on concrete inputs. -/
theorem claim_c9_normalizer_witness :
    normalizeName (Val.vstr " \t ") = none ∧
    (normalizeName (Val.vstr " A  b ")).isSome = true ∧
    ("a b" : String) ≠ "" :=
  ⟨(claim_c9_normalizer Val.vnone " \t " "a b").2.1 (by decide),
   (claim_c9_normalizer Val.vnone " A  b " "a b").2.2.1 (by decide),
   ((claim_c9_normalizer (Val.vstr " A  b ") "" "a b").2.2.2.1 (by decide)).1⟩

/-- C3 counterexample: a key present in the target with value `None` (an
"existing value") is overwritten by the soft merge, so "for every key k
present in base, the merged result at k equals base's original value" is
false as stated. -/
theorem claim_c3_counterexample :
    dget [("a", Val.vnone)] "a" = some Val.vnone ∧
    mergeInfo [("a", Val.vnone)] [("a", Val.vint 2)] = [("a", Val.vint 2)] ∧
    dget (mergeInfo [("a", Val.vnone)] [("a", Val.vint 2)]) "a" ≠ some Val.vnone := by
  decide

/-- C3 (amended): the soft merge never overwrites an existing value that is
not `None`/`""`/`[]`/`{}`; a key absent from the target is filled from a
non-`None` value of `new` (stated for attribute maps with duplicate-free
keys, as Python dicts are); and the spec's concrete example holds. -/
theorem claim_c3_soft_merge (base new : Dct) (k : String) (v : Val) :
    (dget base k = some v → v.isEmptyish = false → dget (mergeInfo base new) k = some v) ∧
    ((new.map Prod.fst).Nodup → dget base k = none → dget new k = some v → v ≠ Val.vnone →
      dget (mergeInfo base new) k = some v) ∧
    mergeInfo [("a", Val.vint 1)] [("a", Val.vint 2), ("b", Val.vint 3)] =
      [("a", Val.vint 1), ("b", Val.vint 3)] :=
  ⟨fun h1 h2 => mergeInfo_preserves base new k v h1 h2,
   fun hnd hb hn hv => mergeInfo_fills base new k v hnd hb hn hv,
   by decide⟩

/-- Witness for C3 on the spec's own example. -/
theorem claim_c3_soft_merge_witness :
    dget (mergeInfo [("a", Val.vint 1)] [("a", Val.vint 2), ("b", Val.vint 3)]) "a"
      = some (Val.vint 1) ∧
    dget (mergeInfo [("a", Val.vint 1)] [("a", Val.vint 2), ("b", Val.vint 3)]) "b"
      = some (Val.vint 3) :=
  ⟨(claim_c3_soft_merge [("a", Val.vint 1)] [("a", Val.vint 2), ("b", Val.vint 3)] "a"
      (Val.vint 1)).1 (by decide) (by decide),
   (claim_c3_soft_merge [("a", Val.vint 1)] [("a", Val.vint 2), ("b", Val.vint 3)] "b"
      (Val.vint 3)).2.1 (by decide) (by decide) (by decide) (by decide)⟩

/-- C1 counterexample: the final merge can replace a non-null track field
of the higher-priority record: the empty string is non-null, yet the
lower-priority record's value wins. -/
theorem claim_c1_counterexample :
    dget ([("track_id", Val.vstr "T"), ("x", Val.vstr "")] : Dct) "x" = some (Val.vstr "") ∧
    Val.vstr "" ≠ Val.vnone ∧
    (integrateAll [[⟨[("track_id", Val.vstr "T"), ("x", Val.vstr "")], [], []⟩],
                   [⟨[("track_id", Val.vstr "T"), ("x", Val.vstr "v2")], [], []⟩], []]).map
        (fun p => (p.1, dget p.2.track "x"))
      = [("T", some (Val.vstr "v2"))] := by
  decide

/-- C1 (amended): if R1 is the first record of the top-priority stream
bearing its track id, and R1's value for a track field is non-null and
non-empty (not `""`/`[]`/`{}`), then the final catalog entry for that track
id holds R1's value for that field, regardless of every record in the
lower-priority streams. -/
theorem claim_c1_first_writer (sA sB sC pre post : List NRec) (r1 : NRec)
    (s f : String) (v : Val)
    (hsplit : sA = pre ++ r1 :: post)
    (hpre : ∀ r ∈ pre, tidOf r ≠ some s)
    (htid : tidOf r1 = some s)
    (hf : dget r1.track f = some v)
    (hne : v.isEmptyish = false) :
    ∃ e, alookup (integrateAll [sA, sB, sC]) s = some e ∧ dget e.track f = some v := by
  subst hsplit
  have hshape : integrateAll [pre ++ r1 :: post, sB, sC] =
      sC.foldl integrateStep (sB.foldl integrateStep
        (post.foldl integrateStep (integrateStep (pre.foldl integrateStep []) r1))) := by
    simp [integrateAll, List.foldl_append]
  have hP : ∀ e r, dget e.track f = some v → dget (mergeNested e r).track f = some v := by
    intro e r hPe
    show dget (mergeInfo e.track r.track) f = some v
    exact mergeInfo_preserves _ _ f v hPe hne
  have h1 : alookup (pre.foldl integrateStep []) s = none := by
    rw [integrate_fold_skips pre [] s hpre]
    rfl
  have h2 : alookup (integrateStep (pre.foldl integrateStep []) r1) s = some r1 := by
    have hstep : integrateStep (pre.foldl integrateStep []) r1
        = pre.foldl integrateStep [] ++ [(s, r1)] := by
      unfold integrateStep
      rw [htid]
      show (match alookup (pre.foldl integrateStep []) s with
            | none => pre.foldl integrateStep [] ++ [(s, r1)]
            | some e2 => aset (pre.foldl integrateStep []) s (mergeNested e2 r1)) = _
      rw [h1]
      rfl
    rw [hstep, alookup_append, h1]
    simp [alookup]
  obtain ⟨e1, he1, hP1⟩ :=
    integrate_fold_keeps (fun e => dget e.track f = some v) hP post _ s r1 h2 hf
  obtain ⟨e2, he2, hP2⟩ :=
    integrate_fold_keeps (fun e => dget e.track f = some v) hP sB _ s e1 he1 hP1
  obtain ⟨e3, he3, hP3⟩ :=
    integrate_fold_keeps (fun e => dget e.track f = some v) hP sC _ s e2 he2 hP2
  rw [hshape]
  exact ⟨e3, he3, hP3⟩

/-- Witness for C1 on a concrete two-source conflict. -/
theorem claim_c1_first_writer_witness :
    ∃ e, alookup (integrateAll
        [[⟨[("track_id", Val.vstr "T"), ("x", Val.vstr "v1")], [], []⟩],
         [⟨[("track_id", Val.vstr "T"), ("x", Val.vstr "v2")], [], []⟩], []]) "T" = some e
      ∧ dget e.track "x" = some (Val.vstr "v1") :=
  claim_c1_first_writer _ _ _ [] []
    ⟨[("track_id", Val.vstr "T"), ("x", Val.vstr "v1")], [], []⟩
    "T" "x" (Val.vstr "v1") rfl (by simp) (by decide) (by decide) (by decide)

/-- C6: a record with a missing `track_id` contributes no catalog entry and
the following records are still processed; likewise a record whose
`track_id` is the empty string.  (The code keeps no dropped-record count at
all: `_integrate` just executes `continue`.) -/
theorem claim_c6_missing_tid :
    integrateAll
        [[⟨[("x", Val.vstr "y")], [], []⟩, ⟨[("track_id", Val.vstr "T9")], [], []⟩], [], []]
      = [("T9", ⟨[("track_id", Val.vstr "T9")], [], []⟩)] ∧
    integrateAll [[⟨[("track_id", Val.vstr "")], [], []⟩], [], []] = [] := by
  decide

/-- C2 counterexample: an artist reference with neither id nor name keeps
a null `artist_id` through enrichment, and an album whose name is
whitespace (truthy but not normalizable) keeps a null `album_id`; so "every
artist reference and every album object has a non-null id" is false. -/
theorem claim_c2_counterexample :
    (transformIntegrated [⟨[("track_id", Val.vstr "T")], [("album_name", Val.vstr " ")], [[]]⟩]
        [] []).map
        (fun e => (e.artists.map (fun a => dget a "artist_id"), dget e.album "album_id"))
      = [([none], none)] := by
  decide

/-- C2 (amended): after the enrichment passes run with the maps of
`_build_knowledge` over the full batch, every artist reference whose
`artist_name` normalizes to a key carries a truthy (non-null, non-empty)
`artist_id`, and every album whose `album_name` is truthy and normalizes to
a key carries a truthy `album_id`; references with no usable name may stay
without an id. -/
theorem claim_c2_id_totality (sp glob yt : List NRec) (r' : NRec) (x : Dct) :
    let m0 := (buildKnowledge (scanAll (sp ++ glob ++ yt)).pendingNames
      (scanAll (sp ++ glob ++ yt)).pendingKeys (sp ++ glob ++ yt)).toMaps
    let e1 := enrichAll m0 sp
    let e2 := enrichAll e1.2 glob
    let e3 := enrichAll e2.2 yt
    (r' ∈ e1.1 ∨ r' ∈ e2.1 ∨ r' ∈ e3.1) →
    ((x ∈ r'.artists → (normalizeName (dgetV x "artist_name")).isSome = true →
        (dgetV x "artist_id").truthy = true) ∧
     ((dgetV r'.album "album_name").truthy = true →
       (normalizeName (dgetV r'.album "album_name")).isSome = true →
       (dgetV r'.album "album_id").truthy = true)) := by
  intro m0 e1 e2 e3 hr
  have hm0 : MapsTruthy m0 := buildMaps_truthy _ _ _
  have h1 := enrichAllFold_inv sp ([], m0) hm0
  have h2 := enrichAllFold_inv glob ([], e1.2) h1.1
  have h3 := enrichAllFold_inv yt ([], e2.2) h2.1
  have hrec : ∃ mx rx, MapsTruthy mx ∧ r' = (enrichRecord mx rx).1 := by
    rcases hr with h | h | h
    · rcases h1.2.2 r' h with hh | hh
      · simp at hh
      · exact hh
    · rcases h2.2.2 r' h with hh | hh
      · simp at hh
      · exact hh
    · rcases h3.2.2 r' h with hh | hh
      · simp at hh
      · exact hh
  obtain ⟨mx, rx, hmx, rfl⟩ := hrec
  constructor
  · intro hx hname
    exact enrichRecord_artists_ok mx rx hmx x hx hname
  · intro ht hn
    exact enrichRecord_album_ok mx rx hmx ht hn

/-- Witness for C2 on a concrete one-record batch. -/
theorem claim_c2_id_totality_witness :
    (dgetV [("artist_name", Val.vstr "Ann"), ("artist_id", Val.vstr "synth:artist:ann")]
      "artist_id").truthy = true ∧
    (dgetV [("album_name", Val.vstr "An Album"),
        ("album_artist_owner_id", Val.vstr "synth:artist:ann"),
        ("album_id", Val.vstr "synth:album:an album::owner:synth:artist:ann")]
      "album_id").truthy = true :=
  ⟨(claim_c2_id_totality
      [⟨[("track_id", Val.vstr "T")], [("album_name", Val.vstr "An Album")],
        [[("artist_name", Val.vstr "Ann")]]⟩] [] []
      ⟨[("track_id", Val.vstr "T")],
       [("album_name", Val.vstr "An Album"),
        ("album_artist_owner_id", Val.vstr "synth:artist:ann"),
        ("album_id", Val.vstr "synth:album:an album::owner:synth:artist:ann")],
       [[("artist_name", Val.vstr "Ann"), ("artist_id", Val.vstr "synth:artist:ann")]]⟩
      [("artist_name", Val.vstr "Ann"), ("artist_id", Val.vstr "synth:artist:ann")]
      (Or.inl (by decide))).1 (by decide) (by decide),
   (claim_c2_id_totality
      [⟨[("track_id", Val.vstr "T")], [("album_name", Val.vstr "An Album")],
        [[("artist_name", Val.vstr "Ann")]]⟩] [] []
      ⟨[("track_id", Val.vstr "T")],
       [("album_name", Val.vstr "An Album"),
        ("album_artist_owner_id", Val.vstr "synth:artist:ann"),
        ("album_id", Val.vstr "synth:album:an album::owner:synth:artist:ann")],
       [[("artist_name", Val.vstr "Ann"), ("artist_id", Val.vstr "synth:artist:ann")]]⟩
      []
      (Or.inl (by decide))).2 (by decide) (by decide)⟩

/-- C5: an album with no `album_id` anywhere, name "Greatest Hits" and
owner artist id "A1", appearing identically in two sources, resolves in
both to `synth:album:greatest hits::owner:A1` and the final catalog holds a
single merged entry carrying that id. -/
theorem claim_c5_greatest_hits :
    (transformIntegrated
        [⟨[("track_id", Val.vstr "T1")],
          [("album_name", Val.vstr "Greatest Hits"), ("album_artist_owner_id", Val.vstr "A1")],
          [[("artist_id", Val.vstr "A1"), ("artist_name", Val.vstr "Ann")]]⟩]
        [⟨[("track_id", Val.vstr "T1")],
          [("album_name", Val.vstr "Greatest Hits"), ("album_artist_owner_id", Val.vstr "A1")],
          [[("artist_id", Val.vstr "A1"), ("artist_name", Val.vstr "Ann")]]⟩]
        []).map (fun e => (e.track_id, dget e.album "album_id"))
      = [("T1", some (Val.vstr "synth:album:greatest hits::owner:A1"))] := by
  decide

/-- C10: in `_merge_artist_lists`, every artist reference with no truthy
`artist_id` and no normalizable `artist_name` receives the same
de-duplication key `("name", "")` (modelled `(false, "")`); consequently,
whenever either input list carries such an anonymous reference, the merged
artist list holds exactly one entry with that key (all anonymous references
of both lists collapse into it). Incoming dicts are assumed duplicate-free
in keys, as Python dicts are. -/
theorem claim_c10_anonymous_artists (a : Dct) (base new : List Dct)
    (hnd : ∀ x ∈ new, (x.map Prod.fst).Nodup) :
    ((dgetV a "artist_id").truthy = false →
      normalizeName (dgetV a "artist_name") = none →
      keyFor a = (false, "")) ∧
    (((∃ x ∈ base, keyFor x = (false, "")) ∨ (∃ x ∈ new, keyFor x = (false, ""))) →
      (mergeArtistLists base new).countP (fun e => keyFor e = (false, "")) = 1) := by
  constructor
  · intro h1 h2
    simp [keyFor, h1, h2]
  · intro hex
    rw [mergeArtistLists_count base new (false, "") hnd, if_pos hex]

/-- Witness for C10 at an anonymous artist reference `{"x": 1}`:
it keys to `(false, "")` and merging yields one entry with that key. -/
theorem claim_c10_anonymous_artists_witness :
    keyFor [("x", Val.vint 1)] = (false, "") ∧
    (mergeArtistLists [] [[("x", Val.vint 1)]]).countP
      (fun e => keyFor e = (false, "")) = 1 :=
  have h := claim_c10_anonymous_artists [("x", Val.vint 1)] [] [[("x", Val.vint 1)]]
    (by decide)
  ⟨h.1 (by decide) (by decide),
   h.2 (Or.inr ⟨[("x", Val.vint 1)], by simp, h.1 (by decide) (by decide)⟩)⟩

/-- An artist reference with no truthy id but a normalizable name always
leaves enrichment with a truthy id that is also registered under the name. -/
theorem enrichArtist_assigns (m : Maps) (a : Dct) (n : String)
    (hm : MapsTruthy m)
    (h0 : (dgetV a "artist_id").truthy = false)
    (hn : normalizeName (dgetV a "artist_name") = some n) :
    ∃ v : Val, v.truthy = true ∧
      dgetV (enrichArtist m a).1 "artist_id" = v ∧
      (enrichArtist m a).2.nameToId n = some v := by
  rcases enrichArtist_cases m a with ⟨h0', _, _⟩ | ⟨n', h0', hn', hl, hm2, ha⟩ |
    ⟨n', h0', hn', hl, hm2, ha⟩ | ⟨_, hn', _, _⟩
  · rw [h0] at h0'
    exact Bool.noConfusion h0'
  · have hnn : n' = n := by
      rw [hn] at hn'
      exact (Option.some.inj hn').symm
    subst hnn
    cases hc : m.nameToId n' with
    | none =>
      rw [hc] at hl
      exact absurd hl (by decide)
    | some w =>
      have hgd : (m.nameToId n').getD .vnone = w := by
        rw [hc]
        rfl
      rw [hgd] at hl ha
      refine ⟨w, hl, ?_, ?_⟩
      · rw [ha]
        split
        · exact dgetV_dset_self a "artist_id" w
        · rw [mergeInfo_keeps_truthy _ _ _ (by rw [dgetV_dset_self]; exact hl)]
          exact dgetV_dset_self a "artist_id" w
      · rw [hm2]
        exact hc
  · have hnn : n' = n := by
      rw [hn] at hn'
      exact (Option.some.inj hn').symm
    subst hnn
    refine ⟨.vstr (synthArtistId n'), synthArtistId_truthy n', ?_, ?_⟩
    · rw [ha]
      split
      · exact dgetV_dset_self a "artist_id" _
      · rw [mergeInfo_keeps_truthy _ _ _
          (by rw [dgetV_dset_self]; exact synthArtistId_truthy n')]
        exact dgetV_dset_self a "artist_id" _
    · rw [hm2]
      show updOpt m.nameToId n' (.vstr (synthArtistId n')) n' = _
      unfold updOpt
      simp
  · rw [hn] at hn'
    exact Option.noConfusion hn'

/-- When the name map already holds a truthy id for the normalized name,
enrichment of an id-less reference adopts exactly that id. -/
theorem enrichArtist_hit_value (m : Maps) (a : Dct) (n : String) (v : Val)
    (h0 : (dgetV a "artist_id").truthy = false)
    (hn : normalizeName (dgetV a "artist_name") = some n)
    (hv : m.nameToId n = some v) (hvt : v.truthy = true) :
    dgetV (enrichArtist m a).1 "artist_id" = v := by
  rcases enrichArtist_cases m a with ⟨h0', _, _⟩ | ⟨n', h0', hn', hl, _, ha⟩ |
    ⟨n', h0', hn', hl, _, ha⟩ | ⟨_, hn', _, _⟩
  · rw [h0] at h0'
    exact Bool.noConfusion h0'
  · have hnn : n' = n := by
      rw [hn] at hn'
      exact (Option.some.inj hn').symm
    subst hnn
    have hgd : (m.nameToId n').getD .vnone = v := by
      rw [hv]
      rfl
    rw [hgd] at ha
    rw [ha]
    split
    · exact dgetV_dset_self a "artist_id" v
    · rw [mergeInfo_keeps_truthy _ _ _ (by rw [dgetV_dset_self]; exact hvt)]
      exact dgetV_dset_self a "artist_id" v
  · have hnn : n' = n := by
      rw [hn] at hn'
      exact (Option.some.inj hn').symm
    subst hnn
    have hgd : (m.nameToId n').getD .vnone = v := by
      rw [hv]
      rfl
    rw [hgd, hvt] at hl
    exact Bool.noConfusion hl
  · rw [hn] at hn'
    exact Option.noConfusion hn'

/-- C7: two artist references with the same normalized name and no
`artist_id`, enriched at any two points of the id-resolution pass (the
second under any maps state extending the first's post-state, as the pass
threads its state monotonically), receive the same truthy `artist_id` and
hence the same de-duplication key; when the two enriched records meet in
the keyed track merge, the merged artists list holds exactly one entry with
that key, and the count stays one under any further merge on top
(duplicate-free dict keys assumed, as for Python dicts). -/
theorem claim_c7_artist_dedup (m1 m2 : Maps) (a1 a2 : Dct) (n : String) (e1 e2 : NRec)
    (hm1 : MapsTruthy m1)
    (h01 : (dgetV a1 "artist_id").truthy = false)
    (h02 : (dgetV a2 "artist_id").truthy = false)
    (hn1 : normalizeName (dgetV a1 "artist_name") = some n)
    (hn2 : normalizeName (dgetV a2 "artist_name") = some n)
    (hle : MapsLe (enrichArtist m1 a1).2 m2)
    (hmem2 : (enrichArtist m2 a2).1 ∈ e2.artists)
    (hnd2 : ∀ x ∈ e2.artists, (x.map Prod.fst).Nodup) :
    ∃ v : Val, v.truthy = true ∧
      keyFor (enrichArtist m1 a1).1 = (true, pyStr v) ∧
      keyFor (enrichArtist m2 a2).1 = (true, pyStr v) ∧
      (mergeNested e1 e2).artists.countP (fun e => keyFor e = (true, pyStr v)) = 1 ∧
      (∀ e3 : NRec, (∀ x ∈ e3.artists, (x.map Prod.fst).Nodup) →
        (mergeNested (mergeNested e1 e2) e3).artists.countP
          (fun e => keyFor e = (true, pyStr v)) = 1) := by
  obtain ⟨v, hvt, hval1, hreg⟩ := enrichArtist_assigns m1 a1 n hm1 h01 hn1
  have hm2v : m2.nameToId n = some v := hle.1 n v hreg
  have hval2 : dgetV (enrichArtist m2 a2).1 "artist_id" = v :=
    enrichArtist_hit_value m2 a2 n v h02 hn2 hm2v hvt
  have hart : (mergeNested e1 e2).artists = mergeArtistLists e1.artists e2.artists := rfl
  have hcount : (mergeNested e1 e2).artists.countP
      (fun e => keyFor e = (true, pyStr v)) = 1 := by
    rw [hart, mergeArtistLists_count _ _ _ hnd2, if_pos]
    exact Or.inr ⟨(enrichArtist m2 a2).1, hmem2, by simp [keyFor, hval2, hvt]⟩
  refine ⟨v, hvt, by simp [keyFor, hval1, hvt], by simp [keyFor, hval2, hvt], hcount, ?_⟩
  intro e3 hnd3
  have hart3 : (mergeNested (mergeNested e1 e2) e3).artists
      = mergeArtistLists (mergeNested e1 e2).artists e3.artists := rfl
  rw [hart3, mergeArtistLists_count _ _ _ hnd3, if_pos]
  left
  have hpos : 0 < (mergeNested e1 e2).artists.countP
      (fun e => keyFor e = (true, pyStr v)) := by
    rw [hcount]
    exact Nat.one_pos
  obtain ⟨x, hx, hxk⟩ := List.countP_pos_iff.mp hpos
  exact ⟨x, hx, of_decide_eq_true hxk⟩

/-- Witness for C7 at two copies of the id-less reference
`{"artist_name": "Ann"}` enriched from the empty maps. -/
theorem claim_c7_artist_dedup_witness :
    ∃ v : Val, v.truthy = true ∧
      keyFor (enrichArtist (⟨fun _ => none, fun _ => [], fun _ => none, fun _ => []⟩ : Maps)
        [("artist_name", Val.vstr "Ann")]).1 = (true, pyStr v) ∧
      keyFor (enrichArtist
        (enrichArtist (⟨fun _ => none, fun _ => [], fun _ => none, fun _ => []⟩ : Maps)
          [("artist_name", Val.vstr "Ann")]).2
        [("artist_name", Val.vstr "Ann")]).1 = (true, pyStr v) ∧
      (mergeNested ⟨[], [], []⟩
        ⟨[], [], [(enrichArtist
          (enrichArtist (⟨fun _ => none, fun _ => [], fun _ => none, fun _ => []⟩ : Maps)
            [("artist_name", Val.vstr "Ann")]).2
          [("artist_name", Val.vstr "Ann")]).1]⟩).artists.countP
        (fun e => keyFor e = (true, pyStr v)) = 1 ∧
      (∀ e3 : NRec, (∀ x ∈ e3.artists, (x.map Prod.fst).Nodup) →
        (mergeNested (mergeNested ⟨[], [], []⟩
          ⟨[], [], [(enrichArtist
            (enrichArtist (⟨fun _ => none, fun _ => [], fun _ => none, fun _ => []⟩ : Maps)
              [("artist_name", Val.vstr "Ann")]).2
            [("artist_name", Val.vstr "Ann")]).1]⟩) e3).artists.countP
          (fun e => keyFor e = (true, pyStr v)) = 1) :=
  claim_c7_artist_dedup
    (⟨fun _ => none, fun _ => [], fun _ => none, fun _ => []⟩ : Maps)
    (enrichArtist (⟨fun _ => none, fun _ => [], fun _ => none, fun _ => []⟩ : Maps)
      [("artist_name", Val.vstr "Ann")]).2
    [("artist_name", Val.vstr "Ann")] [("artist_name", Val.vstr "Ann")] "ann"
    ⟨[], [], []⟩
    ⟨[], [], [(enrichArtist
      (enrichArtist (⟨fun _ => none, fun _ => [], fun _ => none, fun _ => []⟩ : Maps)
        [("artist_name", Val.vstr "Ann")]).2
      [("artist_name", Val.vstr "Ann")]).1]⟩
    ⟨fun _ _ h => Option.noConfusion h, fun _ _ h => Option.noConfusion h⟩
    (by decide) (by decide) (by decide) (by decide)
    (mapsLe_refl _)
    (List.mem_singleton.mpr rfl)
    (by decide)

/-! ### Order-invariance of the knowledge build (C4) -/

theorem upd_self {α β : Type} [DecidableEq α] (f : α → β) (k : α) (v : β) :
    upd f k v k = v := by
  unfold upd
  simp

theorem upd_ne {α β : Type} [DecidableEq α] (f : α → β) (k : α) (v : β) (x : α)
    (h : x ≠ k) : upd f k v x = f x := by
  unfold upd
  simp [h]

theorem upd_comm {α β : Type} [DecidableEq α] (f : α → β) (k1 k2 : α) (v1 v2 : β)
    (h : k1 ≠ k2) : upd (upd f k1 v1) k2 v2 = upd (upd f k2 v2) k1 v1 := by
  funext x
  unfold upd
  by_cases h1 : x = k2 <;> by_cases h2 : x = k1
  · exact absurd (h2 ▸ h1) h
  · simp [h1, h2, Ne.symm h]
  · simp [h1, h2, h]
  · simp [h1, h2]

theorem synthArtistId_inj (n1 n2 : String) (h : synthArtistId n1 = synthArtistId n2) :
    n1 = n2 := by
  unfold synthArtistId at h
  have hd := congrArg String.data h
  rw [String.data_append, String.data_append] at hd
  exact String.ext (List.append_cancel_left hd)

theorem alookup_map_self {α β : Type} [DecidableEq α] (l : List α) (g : α → β) (q : α) :
    alookup (l.map (fun k => (k, g k))) q = if q ∈ l then some (g q) else none := by
  induction l with
  | nil => simp [alookup]
  | cons a l ih =>
    by_cases h : a = q
    · subst h
      simp [alookup]
    · simp [alookup, h, Ne.symm h, ih]

theorem mintArtist_fold_fields (σ : List String) (st : Know) :
    (σ.foldl mintArtistStep st).nameToInfo = st.nameToInfo ∧
    (σ.foldl mintArtistStep st).keyToId = st.keyToId ∧
    (σ.foldl mintArtistStep st).keyToInfo = st.keyToInfo ∧
    (σ.foldl mintArtistStep st).albumIdToInfo = st.albumIdToInfo := by
  induction σ generalizing st with
  | nil => exact ⟨rfl, rfl, rfl, rfl⟩
  | cons n σ ih =>
    rw [List.foldl_cons]
    have hstep : (mintArtistStep st n).nameToInfo = st.nameToInfo ∧
        (mintArtistStep st n).keyToId = st.keyToId ∧
        (mintArtistStep st n).keyToInfo = st.keyToInfo ∧
        (mintArtistStep st n).albumIdToInfo = st.albumIdToInfo := by
      unfold mintArtistStep
      split <;> exact ⟨rfl, rfl, rfl, rfl⟩
    obtain ⟨a1, a2, a3, a4⟩ := ih (mintArtistStep st n)
    obtain ⟨b1, b2, b3, b4⟩ := hstep
    exact ⟨a1.trans b1, a2.trans b2, a3.trans b3, a4.trans b4⟩

theorem mintAlbum_fold_fields (σ : List AKey) (st : Know) :
    (σ.foldl mintAlbumStep st).nameToId = st.nameToId ∧
    (σ.foldl mintAlbumStep st).nameToInfo = st.nameToInfo ∧
    (σ.foldl mintAlbumStep st).idToInfo = st.idToInfo ∧
    (σ.foldl mintAlbumStep st).keyToInfo = st.keyToInfo := by
  induction σ generalizing st with
  | nil => exact ⟨rfl, rfl, rfl, rfl⟩
  | cons k σ ih =>
    rw [List.foldl_cons]
    have hstep : (mintAlbumStep st k).nameToId = st.nameToId ∧
        (mintAlbumStep st k).nameToInfo = st.nameToInfo ∧
        (mintAlbumStep st k).idToInfo = st.idToInfo ∧
        (mintAlbumStep st k).keyToInfo = st.keyToInfo := by
      unfold mintAlbumStep
      split <;> exact ⟨rfl, rfl, rfl, rfl⟩
    obtain ⟨a1, a2, a3, a4⟩ := ih (mintAlbumStep st k)
    obtain ⟨b1, b2, b3, b4⟩ := hstep
    exact ⟨a1.trans b1, a2.trans b2, a3.trans b3, a4.trans b4⟩

theorem mintArtist_fold_nameToId (σ : List String) :
    ∀ st : Know, σ.Nodup →
      (σ.foldl mintArtistStep st).nameToId
        = st.nameToId ++ (σ.filter (fun n => alookup st.nameToId n = none)).map
            (fun n => (n, Val.vstr (synthArtistId n))) := by
  induction σ with
  | nil => intro st _; simp
  | cons n σ ih =>
    intro st hnd
    obtain ⟨hn, hnd'⟩ := List.nodup_cons.mp hnd
    rw [List.foldl_cons, List.filter_cons]
    by_cases hc : alookup st.nameToId n = none
    · have hstep : mintArtistStep st n = { st with
          nameToId := st.nameToId ++ [(n, Val.vstr (synthArtistId n))],
          idToInfo := upd st.idToInfo (Val.vstr (synthArtistId n)) (st.nameToInfo n) } := by
        unfold mintArtistStep
        rw [if_pos hc]
      rw [hstep, ih _ hnd']
      have hfe : σ.filter
            (fun m => alookup (st.nameToId ++ [(n, Val.vstr (synthArtistId n))]) m = none)
          = σ.filter (fun m => alookup st.nameToId m = none) := by
        apply List.filter_congr
        intro m hm
        have hmn : n ≠ m := fun he => hn (he ▸ hm)
        rw [alookup_append]
        have hone : alookup [(n, Val.vstr (synthArtistId n))] m = (none : Option Val) := by
          simp [alookup, hmn]
        rw [hone, Option.or_none]
      rw [decide_eq_true hc, if_pos rfl]
      show st.nameToId ++ [(n, Val.vstr (synthArtistId n))] ++ _ = _
      rw [hfe, List.append_assoc]
      rfl
    · have hstep : mintArtistStep st n = st := by
        unfold mintArtistStep
        rw [if_neg hc]
      rw [hstep, ih _ hnd', decide_eq_false hc]
      rfl

theorem mintAlbum_fold_keyToId (σ : List AKey) :
    ∀ st : Know, σ.Nodup →
      (σ.foldl mintAlbumStep st).keyToId
        = st.keyToId ++ (σ.filter (fun k => alookup st.keyToId k = none)).map
            (fun k => (k, Val.vstr (synthAlbumId k))) := by
  induction σ with
  | nil => intro st _; simp
  | cons k σ ih =>
    intro st hnd
    obtain ⟨hk, hnd'⟩ := List.nodup_cons.mp hnd
    rw [List.foldl_cons, List.filter_cons]
    by_cases hc : alookup st.keyToId k = none
    · have hstep : mintAlbumStep st k = { st with
          keyToId := st.keyToId ++ [(k, Val.vstr (synthAlbumId k))],
          albumIdToInfo := upd st.albumIdToInfo (Val.vstr (synthAlbumId k)) (st.keyToInfo k) } := by
        unfold mintAlbumStep
        rw [if_pos hc]
      rw [hstep, ih _ hnd']
      have hfe : σ.filter
            (fun m => alookup (st.keyToId ++ [(k, Val.vstr (synthAlbumId k))]) m = none)
          = σ.filter (fun m => alookup st.keyToId m = none) := by
        apply List.filter_congr
        intro m hm
        have hmn : k ≠ m := fun he => hk (he ▸ hm)
        rw [alookup_append]
        have hone : alookup [(k, Val.vstr (synthAlbumId k))] m = (none : Option Val) := by
          simp [alookup, hmn]
        rw [hone, Option.or_none]
      rw [decide_eq_true hc, if_pos rfl]
      show st.keyToId ++ [(k, Val.vstr (synthAlbumId k))] ++ _ = _
      rw [hfe, List.append_assoc]
      rfl
    · have hstep : mintAlbumStep st k = st := by
        unfold mintAlbumStep
        rw [if_neg hc]
      rw [hstep, ih _ hnd', decide_eq_false hc]
      rfl

theorem mintArtist_fold_info (σ : List String) :
    ∀ st : Know, σ.Nodup →
      (∀ n ∈ σ, alookup st.nameToId n = none →
        (σ.foldl mintArtistStep st).idToInfo (Val.vstr (synthArtistId n)) = st.nameToInfo n) ∧
      (∀ v, (∀ n ∈ σ, alookup st.nameToId n = none → Val.vstr (synthArtistId n) ≠ v) →
        (σ.foldl mintArtistStep st).idToInfo v = st.idToInfo v) := by
  induction σ with
  | nil => exact fun st _ => ⟨fun n hn => absurd hn (by simp), fun v _ => rfl⟩
  | cons n σ ih =>
    intro st hnd
    obtain ⟨hn, hnd'⟩ := List.nodup_cons.mp hnd
    rw [List.foldl_cons]
    by_cases hc : alookup st.nameToId n = none
    · have hstep : mintArtistStep st n = { st with
          nameToId := st.nameToId ++ [(n, Val.vstr (synthArtistId n))],
          idToInfo := upd st.idToInfo (Val.vstr (synthArtistId n)) (st.nameToInfo n) } := by
        unfold mintArtistStep
        rw [if_pos hc]
      rw [hstep]
      obtain ⟨ih1, ih2⟩ := ih _ hnd'
      constructor
      · intro m hm hno
        rcases List.mem_cons.mp hm with rfl | hm'
        · have hside : ∀ m' ∈ σ,
              alookup (st.nameToId ++ [(m, Val.vstr (synthArtistId m))]) m' = none →
              Val.vstr (synthArtistId m') ≠ Val.vstr (synthArtistId m) := by
            intro m' hm' _ heq
            have hmm : m' = m := synthArtistId_inj _ _ (Val.vstr.inj heq)
            exact hn (hmm ▸ hm')
          rw [ih2 _ hside]
          exact upd_self _ _ _
        · have hmn : n ≠ m := fun he => hn (he ▸ hm')
          have hno' : alookup (st.nameToId ++ [(n, Val.vstr (synthArtistId n))]) m = none := by
            rw [alookup_append, hno, Option.none_or]
            simp [alookup, hmn]
          rw [ih1 m hm' hno']
      · intro v hv
        have hside : ∀ m ∈ σ,
            alookup (st.nameToId ++ [(n, Val.vstr (synthArtistId n))]) m = none →
            Val.vstr (synthArtistId m) ≠ v := by
          intro m hm hno
          have hmno : alookup st.nameToId m = none := by
            rw [alookup_append] at hno
            exact (Option.or_eq_none.mp hno).1
          exact hv m (List.mem_cons_of_mem _ hm) hmno
        rw [ih2 v hside]
        exact upd_ne _ _ _ _ (Ne.symm (hv n (List.mem_cons_self n σ) hc))
    · have hstep : mintArtistStep st n = st := by
        unfold mintArtistStep
        rw [if_neg hc]
      rw [hstep]
      obtain ⟨ih1, ih2⟩ := ih st hnd'
      constructor
      · intro m hm hno
        rcases List.mem_cons.mp hm with rfl | hm'
        · exact absurd hno hc
        · exact ih1 m hm' hno
      · intro v hv
        exact ih2 v (fun m hm => hv m (List.mem_cons_of_mem _ hm))

theorem mintAlbum_fold_info (σ : List AKey) :
    ∀ st : Know, σ.Nodup →
      (∀ k1 ∈ σ, ∀ k2 ∈ σ, synthAlbumId k1 = synthAlbumId k2 → k1 = k2) →
      (∀ k ∈ σ, alookup st.keyToId k = none →
        (σ.foldl mintAlbumStep st).albumIdToInfo (Val.vstr (synthAlbumId k)) = st.keyToInfo k) ∧
      (∀ v, (∀ k ∈ σ, alookup st.keyToId k = none → Val.vstr (synthAlbumId k) ≠ v) →
        (σ.foldl mintAlbumStep st).albumIdToInfo v = st.albumIdToInfo v) := by
  induction σ with
  | nil => exact fun st _ _ => ⟨fun k hk => absurd hk (by simp), fun v _ => rfl⟩
  | cons k σ ih =>
    intro st hnd hinj
    obtain ⟨hk, hnd'⟩ := List.nodup_cons.mp hnd
    have hinj' : ∀ k1 ∈ σ, ∀ k2 ∈ σ, synthAlbumId k1 = synthAlbumId k2 → k1 = k2 :=
      fun k1 hk1 k2 hk2 =>
        hinj k1 (List.mem_cons_of_mem _ hk1) k2 (List.mem_cons_of_mem _ hk2)
    rw [List.foldl_cons]
    by_cases hc : alookup st.keyToId k = none
    · have hstep : mintAlbumStep st k = { st with
          keyToId := st.keyToId ++ [(k, Val.vstr (synthAlbumId k))],
          albumIdToInfo := upd st.albumIdToInfo (Val.vstr (synthAlbumId k)) (st.keyToInfo k) } := by
        unfold mintAlbumStep
        rw [if_pos hc]
      rw [hstep]
      obtain ⟨ih1, ih2⟩ := ih _ hnd' hinj'
      constructor
      · intro m hm hno
        rcases List.mem_cons.mp hm with rfl | hm'
        · have hside : ∀ m' ∈ σ,
              alookup (st.keyToId ++ [(m, Val.vstr (synthAlbumId m))]) m' = none →
              Val.vstr (synthAlbumId m') ≠ Val.vstr (synthAlbumId m) := by
            intro m' hm' _ heq
            have hmm : m' = m := hinj m' (List.mem_cons_of_mem _ hm')
              m (List.mem_cons_self m σ) (Val.vstr.inj heq)
            exact hk (hmm ▸ hm')
          rw [ih2 _ hside]
          exact upd_self _ _ _
        · have hmn : k ≠ m := fun he => hk (he ▸ hm')
          have hno' : alookup (st.keyToId ++ [(k, Val.vstr (synthAlbumId k))]) m = none := by
            rw [alookup_append, hno, Option.none_or]
            simp [alookup, hmn]
          rw [ih1 m hm' hno']
      · intro v hv
        have hside : ∀ m ∈ σ,
            alookup (st.keyToId ++ [(k, Val.vstr (synthAlbumId k))]) m = none →
            Val.vstr (synthAlbumId m) ≠ v := by
          intro m hm hno
          have hmno : alookup st.keyToId m = none := by
            rw [alookup_append] at hno
            exact (Option.or_eq_none.mp hno).1
          exact hv m (List.mem_cons_of_mem _ hm) hmno
        rw [ih2 v hside]
        exact upd_ne _ _ _ _ (Ne.symm (hv k (List.mem_cons_self k σ) hc))
    · have hstep : mintAlbumStep st k = st := by
        unfold mintAlbumStep
        rw [if_neg hc]
      rw [hstep]
      obtain ⟨ih1, ih2⟩ := ih st hnd' hinj'
      constructor
      · intro m hm hno
        rcases List.mem_cons.mp hm with rfl | hm'
        · exact absurd hno hc
        · exact ih1 m hm' hno
      · intro v hv
        exact ih2 v (fun m hm => hv m (List.mem_cons_of_mem _ hm))

theorem mintArtist_fold_info_eq (σ σ' : List String) (hp : σ.Perm σ') (hnd : σ.Nodup)
    (st : Know) :
    (σ.foldl mintArtistStep st).idToInfo = (σ'.foldl mintArtistStep st).idToInfo := by
  funext v
  by_cases h : ∃ n, n ∈ σ ∧ alookup st.nameToId n = none ∧ Val.vstr (synthArtistId n) = v
  · obtain ⟨n, hn, hno, hv⟩ := h
    rw [← hv, (mintArtist_fold_info σ st hnd).1 n hn hno,
       (mintArtist_fold_info σ' st (hp.nodup_iff.mp hnd)).1 n (hp.mem_iff.mp hn) hno]
  · push_neg at h
    rw [(mintArtist_fold_info σ st hnd).2 v h,
       (mintArtist_fold_info σ' st (hp.nodup_iff.mp hnd)).2 v
         (fun n hn => h n (hp.mem_iff.mpr hn))]

theorem mintAlbum_fold_info_eq (σ σ' : List AKey) (hp : σ.Perm σ') (hnd : σ.Nodup)
    (hinj : ∀ k1 ∈ σ, ∀ k2 ∈ σ, synthAlbumId k1 = synthAlbumId k2 → k1 = k2)
    (st st' : Know)
    (h1 : st.keyToId = st'.keyToId) (h2 : st.keyToInfo = st'.keyToInfo)
    (h3 : st.albumIdToInfo = st'.albumIdToInfo) :
    (σ.foldl mintAlbumStep st).albumIdToInfo
      = (σ'.foldl mintAlbumStep st').albumIdToInfo := by
  have hinj' : ∀ k1 ∈ σ', ∀ k2 ∈ σ', synthAlbumId k1 = synthAlbumId k2 → k1 = k2 :=
    fun k1 hk1 k2 hk2 => hinj k1 (hp.mem_iff.mpr hk1) k2 (hp.mem_iff.mpr hk2)
  funext v
  by_cases h : ∃ k, k ∈ σ ∧ alookup st.keyToId k = none ∧ Val.vstr (synthAlbumId k) = v
  · obtain ⟨k, hkm, hno, hv⟩ := h
    rw [← hv, (mintAlbum_fold_info σ st hnd hinj).1 k hkm hno,
       (mintAlbum_fold_info σ' st' (hp.nodup_iff.mp hnd) hinj').1 k
         (hp.mem_iff.mp hkm) (h1 ▸ hno)]
    exact congrFun h2 k
  · push_neg at h
    rw [(mintAlbum_fold_info σ st hnd hinj).2 v h,
       (mintAlbum_fold_info σ' st' (hp.nodup_iff.mp hnd) hinj').2 v
         (fun k hkm hno => h k (hp.mem_iff.mpr hkm) (h1.symm ▸ hno))]
    exact congrFun h3 v

theorem mintArtist_fold_nameToId_lookup (σ σ' : List String) (hp : σ.Perm σ')
    (hnd : σ.Nodup) (st : Know) (q : String) :
    alookup (σ.foldl mintArtistStep st).nameToId q
      = alookup (σ'.foldl mintArtistStep st).nameToId q := by
  rw [mintArtist_fold_nameToId σ st hnd,
      mintArtist_fold_nameToId σ' st (hp.nodup_iff.mp hnd),
      alookup_append, alookup_append, alookup_map_self, alookup_map_self]
  congr 1
  by_cases hq : q ∈ σ.filter (fun n => alookup st.nameToId n = none)
  · rw [if_pos hq, if_pos ((hp.filter _).mem_iff.mp hq)]
  · rw [if_neg hq, if_neg (fun hq2 => hq ((hp.filter _).mem_iff.mpr hq2))]

theorem mintAlbum_fold_keyToId_lookup (σ σ' : List AKey) (hp : σ.Perm σ')
    (hnd : σ.Nodup) (st st' : Know) (h1 : st.keyToId = st'.keyToId) (q : AKey) :
    alookup (σ.foldl mintAlbumStep st).keyToId q
      = alookup (σ'.foldl mintAlbumStep st').keyToId q := by
  rw [mintAlbum_fold_keyToId σ st hnd,
      mintAlbum_fold_keyToId σ' st' (hp.nodup_iff.mp hnd),
      alookup_append, alookup_append, alookup_map_self, alookup_map_self, ← h1]
  congr 1
  by_cases hq : q ∈ σ.filter (fun k => alookup st.keyToId k = none)
  · rw [if_pos hq, if_pos ((hp.filter _).mem_iff.mp hq)]
  · rw [if_neg hq, if_neg (fun hq2 => hq ((hp.filter _).mem_iff.mpr hq2))]

theorem fuseArtistPair_skip (info : String → Dct) (f : Val → Dct) (p : String × Val)
    (h : info p.1 = []) : fuseArtistPair info f p = f := by
  unfold fuseArtistPair
  rw [if_pos h]

theorem fuseArtistPair_hit (info : String → Dct) (f : Val → Dct) (p : String × Val)
    (h : ¬(info p.1 = [])) :
    fuseArtistPair info f p = upd f p.2 (mergeInfo (f p.2) (info p.1)) := by
  unfold fuseArtistPair
  rw [if_neg h]

theorem fuseAlbumPair_skip (info : AKey → Dct) (f : Val → Dct) (p : AKey × Val)
    (h : info p.1 = []) : fuseAlbumPair info f p = f := by
  unfold fuseAlbumPair
  rw [if_pos h]

theorem fuseAlbumPair_hit (info : AKey → Dct) (f : Val → Dct) (p : AKey × Val)
    (h : ¬(info p.1 = [])) :
    fuseAlbumPair info f p = upd f p.2 (mergeInfo (f p.2) (info p.1)) := by
  unfold fuseAlbumPair
  rw [if_neg h]

theorem fuseArtistPair_comm (info : String → Dct) (f : Val → Dct) (p q : String × Val)
    (h : p.2 ≠ q.2) :
    fuseArtistPair info (fuseArtistPair info f p) q
      = fuseArtistPair info (fuseArtistPair info f q) p := by
  by_cases h1 : info p.1 = [] <;> by_cases h2 : info q.1 = []
  · rw [fuseArtistPair_skip info f p h1, fuseArtistPair_skip info _ p h1]
  · rw [fuseArtistPair_skip info f p h1, fuseArtistPair_skip info _ p h1]
  · rw [fuseArtistPair_skip info f q h2, fuseArtistPair_skip info _ q h2]
  · rw [fuseArtistPair_hit info f p h1, fuseArtistPair_hit info _ q h2,
        fuseArtistPair_hit info f q h2, fuseArtistPair_hit info _ p h1,
        upd_ne _ _ _ _ (Ne.symm h), upd_ne _ _ _ _ h]
    exact upd_comm _ _ _ _ _ h

theorem fuseAlbumPair_comm (info : AKey → Dct) (f : Val → Dct) (p q : AKey × Val)
    (h : p.2 ≠ q.2) :
    fuseAlbumPair info (fuseAlbumPair info f p) q
      = fuseAlbumPair info (fuseAlbumPair info f q) p := by
  by_cases h1 : info p.1 = [] <;> by_cases h2 : info q.1 = []
  · rw [fuseAlbumPair_skip info f p h1, fuseAlbumPair_skip info _ p h1]
  · rw [fuseAlbumPair_skip info f p h1, fuseAlbumPair_skip info _ p h1]
  · rw [fuseAlbumPair_skip info f q h2, fuseAlbumPair_skip info _ q h2]
  · rw [fuseAlbumPair_hit info f p h1, fuseAlbumPair_hit info _ q h2,
        fuseAlbumPair_hit info f q h2, fuseAlbumPair_hit info _ p h1,
        upd_ne _ _ _ _ (Ne.symm h), upd_ne _ _ _ _ h]
    exact upd_comm _ _ _ _ _ h

theorem fuseArtist_fold_perm (info : String → Dct) (l l' : List (String × Val))
    (hp : l.Perm l') (hnd : (l.map Prod.snd).Nodup) (f : Val → Dct) :
    l.foldl (fuseArtistPair info) f = l'.foldl (fuseArtistPair info) f := by
  refine hp.foldl_eq' ?_ f
  intro x hx y hy z
  by_cases hxy : x = y
  · subst hxy
    rfl
  · exact fuseArtistPair_comm info z x y
      (fun he => hxy (List.inj_on_of_nodup_map hnd hx hy he))

theorem fuseAlbum_fold_perm (info : AKey → Dct) (l l' : List (AKey × Val))
    (hp : l.Perm l') (hnd : (l.map Prod.snd).Nodup) (f : Val → Dct) :
    l.foldl (fuseAlbumPair info) f = l'.foldl (fuseAlbumPair info) f := by
  refine hp.foldl_eq' ?_ f
  intro x hx y hy z
  by_cases hxy : x = y
  · subst hxy
    rfl
  · exact fuseAlbumPair_comm info z x y
      (fun he => hxy (List.inj_on_of_nodup_map hnd hx hy he))

/-- The four maps consumed downstream of `_build_knowledge` do not depend
on the enumeration orders of the two pending sets, provided the synthetic
album ids of the pending album keys do not collide. -/
theorem buildKnowledge_toMaps_perm (σa σa' : List String) (σb σb' : List AKey)
    (recs : List NRec) (ha : σa.Perm σa') (hnda : σa.Nodup)
    (hb : σb.Perm σb') (hndb : σb.Nodup)
    (hinj : ∀ k1 ∈ σb, ∀ k2 ∈ σb, synthAlbumId k1 = synthAlbumId k2 → k1 = k2) :
    (buildKnowledge σa σb recs).toMaps = (buildKnowledge σa' σb' recs).toMaps := by
  have hnda' : σa'.Nodup := ha.nodup_iff.mp hnda
  have hndb' : σb'.Nodup := hb.nodup_iff.mp hndb
  have hK2eq : (kbSt2 σa recs).keyToId = (kbSt2 σa' recs).keyToId :=
    ((mintArtist_fold_fields σa (scanAll recs)).2.1).trans
      ((mintArtist_fold_fields σa' (scanAll recs)).2.1).symm
  have hKI2eq : (kbSt2 σa recs).keyToInfo = (kbSt2 σa' recs).keyToInfo :=
    ((mintArtist_fold_fields σa (scanAll recs)).2.2.1).trans
      ((mintArtist_fold_fields σa' (scanAll recs)).2.2.1).symm
  have hA2eq : (kbSt2 σa recs).albumIdToInfo = (kbSt2 σa' recs).albumIdToInfo :=
    ((mintArtist_fold_fields σa (scanAll recs)).2.2.2).trans
      ((mintArtist_fold_fields σa' (scanAll recs)).2.2.2).symm
  have pn : (buildKnowledge σa σb recs).nameToId
      = (σa.foldl mintArtistStep (scanAll recs)).nameToId :=
    (mintAlbum_fold_fields σb (kbSt2 σa recs)).1
  have pn' : (buildKnowledge σa' σb' recs).nameToId
      = (σa'.foldl mintArtistStep (scanAll recs)).nameToId :=
    (mintAlbum_fold_fields σb' (kbSt2 σa' recs)).1
  have c1 : (fun n => alookup (buildKnowledge σa σb recs).nameToId n)
      = (fun n => alookup (buildKnowledge σa' σb' recs).nameToId n) := by
    funext q
    rw [pn, pn']
    exact mintArtist_fold_nameToId_lookup σa σa' ha hnda (scanAll recs) q
  have pi : (buildKnowledge σa σb recs).idToInfo
      = (σa.foldl mintArtistStep (scanAll recs)).nameToId.foldl
          (fuseArtistPair (σa.foldl mintArtistStep (scanAll recs)).nameToInfo)
          (σa.foldl mintArtistStep (scanAll recs)).idToInfo :=
    (mintAlbum_fold_fields σb (kbSt2 σa recs)).2.2.1
  have pi' : (buildKnowledge σa' σb' recs).idToInfo
      = (σa'.foldl mintArtistStep (scanAll recs)).nameToId.foldl
          (fuseArtistPair (σa'.foldl mintArtistStep (scanAll recs)).nameToInfo)
          (σa'.foldl mintArtistStep (scanAll recs)).idToInfo :=
    (mintAlbum_fold_fields σb' (kbSt2 σa' recs)).2.2.1
  have c2core : (σa.foldl mintArtistStep (scanAll recs)).nameToId.foldl
          (fuseArtistPair (σa.foldl mintArtistStep (scanAll recs)).nameToInfo)
          (σa.foldl mintArtistStep (scanAll recs)).idToInfo
      = (σa'.foldl mintArtistStep (scanAll recs)).nameToId.foldl
          (fuseArtistPair (σa'.foldl mintArtistStep (scanAll recs)).nameToInfo)
          (σa'.foldl mintArtistStep (scanAll recs)).idToInfo := by
    rw [(mintArtist_fold_fields σa (scanAll recs)).1,
        (mintArtist_fold_fields σa' (scanAll recs)).1,
        mintArtist_fold_info_eq σa σa' ha hnda (scanAll recs),
        mintArtist_fold_nameToId σa (scanAll recs) hnda,
        mintArtist_fold_nameToId σa' (scanAll recs) hnda',
        List.foldl_append, List.foldl_append]
    refine fuseArtist_fold_perm _ _ _ ((ha.filter _).map _) ?_ _
    rw [List.map_map]
    refine List.Nodup.map ?_ (hnda.filter _)
    intro x y hxy
    exact synthArtistId_inj _ _ (Val.vstr.inj hxy)
  have c2 : (buildKnowledge σa σb recs).idToInfo
      = (buildKnowledge σa' σb' recs).idToInfo :=
    pi.trans (c2core.trans pi'.symm)
  have c3 : (fun k => alookup (buildKnowledge σa σb recs).keyToId k)
      = (fun k => alookup (buildKnowledge σa' σb' recs).keyToId k) := by
    funext q
    exact mintAlbum_fold_keyToId_lookup σb σb' hb hndb
      (kbSt2 σa recs) (kbSt2 σa' recs) hK2eq q
  have c4 : (buildKnowledge σa σb recs).albumIdToInfo
      = (buildKnowledge σa' σb' recs).albumIdToInfo := by
    show (σb.foldl mintAlbumStep (kbSt2 σa recs)).keyToId.foldl
        (fuseAlbumPair (σb.foldl mintAlbumStep (kbSt2 σa recs)).keyToInfo)
        (σb.foldl mintAlbumStep (kbSt2 σa recs)).albumIdToInfo
      = (σb'.foldl mintAlbumStep (kbSt2 σa' recs)).keyToId.foldl
        (fuseAlbumPair (σb'.foldl mintAlbumStep (kbSt2 σa' recs)).keyToInfo)
        (σb'.foldl mintAlbumStep (kbSt2 σa' recs)).albumIdToInfo
    rw [(mintAlbum_fold_fields σb (kbSt2 σa recs)).2.2.2,
        (mintAlbum_fold_fields σb' (kbSt2 σa' recs)).2.2.2,
        ← hKI2eq,
        mintAlbum_fold_info_eq σb σb' hb hndb hinj (kbSt2 σa recs) (kbSt2 σa' recs)
          hK2eq hKI2eq hA2eq,
        mintAlbum_fold_keyToId σb (kbSt2 σa recs) hndb,
        mintAlbum_fold_keyToId σb' (kbSt2 σa' recs) hndb',
        ← hK2eq,
        List.foldl_append, List.foldl_append]
    refine fuseAlbum_fold_perm _ _ _ ((hb.filter _).map _) ?_ _
    rw [List.map_map]
    refine List.Nodup.map_on ?_ (hndb.filter _)
    intro x hx y hy hxy
    exact hinj x (List.mem_of_mem_filter hx) y (List.mem_of_mem_filter hy)
      (Val.vstr.inj hxy)
  show Maps.mk _ _ _ _ = Maps.mk _ _ _ _
  rw [c1, c2, c3, c4]

/-- C4 counterexample: the engine's output is not a function of the three
input streams alone — it also depends on the enumeration order of the
pending-album-key set, which Python leaves unspecified (string hashing is
randomized across processes). For a batch whose two pending album keys
`("a", None)` and `("a", "none")` render to the same synthetic id, the two
enumeration orders of the very same pending sets yield different catalogs
(track T3's album_type differs), refuting two-run byte-identity. -/
theorem claim_c4_counterexample :
    ((scanAll
        [⟨[("track_id", Val.vstr "T1")],
          [("album_name", Val.vstr "A"), ("album_type", Val.vstr "t1")], []⟩,
         ⟨[("track_id", Val.vstr "T2")],
          [("album_name", Val.vstr "A"), ("album_type", Val.vstr "t2")],
          [[("artist_name", Val.vstr "None")]]⟩,
         ⟨[("track_id", Val.vstr "T3")], [("album_name", Val.vstr "A")], []⟩]).pendingNames
        = ["none"] ∧
     (scanAll
        [⟨[("track_id", Val.vstr "T1")],
          [("album_name", Val.vstr "A"), ("album_type", Val.vstr "t1")], []⟩,
         ⟨[("track_id", Val.vstr "T2")],
          [("album_name", Val.vstr "A"), ("album_type", Val.vstr "t2")],
          [[("artist_name", Val.vstr "None")]]⟩,
         ⟨[("track_id", Val.vstr "T3")], [("album_name", Val.vstr "A")], []⟩]).pendingKeys
        = [(some "a", Val.vnone), (some "a", Val.vstr "none")]) ∧
    transformWith ["none"] [(some "a", Val.vnone), (some "a", Val.vstr "none")]
        [⟨[("track_id", Val.vstr "T1")],
          [("album_name", Val.vstr "A"), ("album_type", Val.vstr "t1")], []⟩,
         ⟨[("track_id", Val.vstr "T2")],
          [("album_name", Val.vstr "A"), ("album_type", Val.vstr "t2")],
          [[("artist_name", Val.vstr "None")]]⟩,
         ⟨[("track_id", Val.vstr "T3")], [("album_name", Val.vstr "A")], []⟩] [] []
      ≠ transformWith ["none"] [(some "a", Val.vstr "none"), (some "a", Val.vnone)]
        [⟨[("track_id", Val.vstr "T1")],
          [("album_name", Val.vstr "A"), ("album_type", Val.vstr "t1")], []⟩,
         ⟨[("track_id", Val.vstr "T2")],
          [("album_name", Val.vstr "A"), ("album_type", Val.vstr "t2")],
          [[("artist_name", Val.vstr "None")]]⟩,
         ⟨[("track_id", Val.vstr "T3")], [("album_name", Val.vstr "A")], []⟩] [] [] := by
  decide

/-- C4 (amended): the engine is deterministic up to the pending-set
enumeration orders whenever the synthetic album ids of the pending album
keys do not collide: for duplicate-free enumerations, any two orders of
the pending-name and pending-key sets produce identical catalogs (the
artist side needs no proviso, as `synth:artist:<norm>` is injective). -/
theorem claim_c4_determinism (σa σa' : List String) (σb σb' : List AKey)
    (sp glob yt : List NRec) (ha : σa.Perm σa') (hnda : σa.Nodup)
    (hb : σb.Perm σb') (hndb : σb.Nodup)
    (hinj : ∀ k1 ∈ σb, ∀ k2 ∈ σb, synthAlbumId k1 = synthAlbumId k2 → k1 = k2) :
    transformWith σa σb sp glob yt = transformWith σa' σb' sp glob yt := by
  unfold transformWith
  rw [buildKnowledge_toMaps_perm σa σa' σb σb' (sp ++ glob ++ yt) ha hnda hb hndb hinj]

/-- Witness for C4 (amended) on a two-record batch whose pending sets are
enumerated in opposite orders. -/
theorem claim_c4_determinism_witness :
    transformWith ["ann", "bob"] [(some "a", Val.vstr "ann"), (some "b", Val.vstr "bob")]
        [⟨[("track_id", Val.vstr "T1")], [("album_name", Val.vstr "A")],
          [[("artist_name", Val.vstr "Ann")]]⟩,
         ⟨[("track_id", Val.vstr "T2")], [("album_name", Val.vstr "B")],
          [[("artist_name", Val.vstr "Bob")]]⟩] [] []
      = transformWith ["bob", "ann"] [(some "b", Val.vstr "bob"), (some "a", Val.vstr "ann")]
        [⟨[("track_id", Val.vstr "T1")], [("album_name", Val.vstr "A")],
          [[("artist_name", Val.vstr "Ann")]]⟩,
         ⟨[("track_id", Val.vstr "T2")], [("album_name", Val.vstr "B")],
          [[("artist_name", Val.vstr "Bob")]]⟩] [] [] :=
  claim_c4_determinism ["ann", "bob"] ["bob", "ann"]
    [(some "a", Val.vstr "ann"), (some "b", Val.vstr "bob")]
    [(some "b", Val.vstr "bob"), (some "a", Val.vstr "ann")]
    [⟨[("track_id", Val.vstr "T1")], [("album_name", Val.vstr "A")],
      [[("artist_name", Val.vstr "Ann")]]⟩,
     ⟨[("track_id", Val.vstr "T2")], [("album_name", Val.vstr "B")],
      [[("artist_name", Val.vstr "Bob")]]⟩] [] []
    (by decide) (by decide) (by decide) (by decide) (by decide)

end MashupETL
